import Mathlib

set_option maxHeartbeats 1000000

set_option maxRecDepth 8000

/-!
Shallow embedding of the pathfinding and mission core of `src/SAR.py`
(Search-and-Rescue grid simulation).  Grid positions are Python integer
pairs, modelled as `ℤ × ℤ`.  Python `float('inf')` appears in the source
only as the sentinel for missing dictionary entries and failed searches,
so costs are modelled as `Option ℕ` with `none` standing for infinity.
-/

/-! ### Definitions: the embedded program -/

abbrev Pos : Type := ℤ × ℤ

def GRID_WIDTH_CELLS : ℤ := 25

def GRID_HEIGHT_CELLS : ℤ := 20

/-- Tile grid `self.game_map` (`game_map[y][x]`, tile kinds 0..4).  A grid is
total as a function; the source only reads it at in-bounds positions. -/
abbrev GameMap : Type := Pos → ℕ

/-- Cost grids produced by `create_dynamic_cost_map`, and the all-ones default
of `a_star`.  The source stores them as dense lists of lists; reading
`cost_map[y][x]` is modelled as function application. -/
abbrev CostMap : Type := Pos → ℕ

/-- Bounds test `0 <= x < GRID_WIDTH_CELLS and 0 <= y < GRID_HEIGHT_CELLS`
used throughout `SAR.py`. -/
def inBounds (p : Pos) : Prop :=
  0 ≤ p.1 ∧ p.1 < GRID_WIDTH_CELLS ∧ 0 ≤ p.2 ∧ p.2 < GRID_HEIGHT_CELLS

instance (p : Pos) : Decidable (inBounds p) := by
  unfold inBounds; infer_instance

/-- Manhattan distance `abs(a[0]-b[0]) + abs(a[1]-b[1])`, the `a_star`
heuristic (SAR.py line 1220) and the sort key of several planners. -/
def manhattan (a b : Pos) : ℕ := (a.1 - b.1).natAbs + (a.2 - b.2).natAbs

/-- `Node` (SAR.py lines 79-98): a search node is a position plus the parent
chain used for path reconstruction; `parent=None` is the `root` case. -/
inductive NodeC : Type
| root (position : Pos)
| child (position : Pos) (parent : NodeC)

def NodeC.position : NodeC → Pos
| root p => p
| child p _ => p

/-- The backtrace loop of `a_star` (SAR.py lines 1191-1195): positions from a
node back to the root.  The returned path is `chain.reverse`. -/
def NodeC.chain : NodeC → List Pos
| root p => [p]
| child p par => p :: par.chain

/-- Comparison `new_g < g_costs.get(pos, float('inf'))` with `none` as the
infinite default. -/
def ltOpt : Option ℕ → Option ℕ → Bool
| none, _ => false
| some _, none => true
| some a, some b => decide (a < b)

/-- Comparison `turns_to_reach <= max_turns` where the left side may be the
infinite `a_star` failure cost. -/
def leOptNat : Option ℕ → ℕ → Bool
| none, _ => false
| some a, b => decide (a ≤ b)

/-- Heap entries `(f, node)` pushed by `a_star`.  Python tuple comparison
reduces to comparing the `f` components: `Node.__lt__` compares the `f`
attributes, which `a_star` never assigns, so nodes never compare below one
another. -/
abbrev Entry : Type := ℕ × NodeC

/-- The source uses the external `heapq` library for its priority queue and
relies only on its contract: `heappop` returns a least entry (the spec, §4.1,
leaves tie-breaking unspecified).  The queue is modelled as a list kept
sorted by the `f` key: push inserts before the first strictly larger key,
pop takes the head. -/
def heappush : List Entry → Entry → List Entry
| [], e => [e]
| x :: xs, e => if e.1 < x.1 then e :: x :: xs else x :: heappush xs e

/-- The mutable search state of one `a_star` invocation: the `nodes` heap,
the `closed` set and the `g_costs` dictionary (SAR.py lines 1182-1184). -/
structure AState where
  nodes : List Entry
  closed : List Pos
  g_costs : Pos → Option ℕ

/-- Dictionary write `g_costs[pos] = new_g`. -/
def updFun (f : Pos → Option ℕ) (p : Pos) (v : Option ℕ) : Pos → Option ℕ :=
  fun q => if q = p then v else f q

/-- `cardinal_moves` (SAR.py line 1204). -/
def cardinal_moves : List Pos := [(0, -1), (0, 1), (-1, 0), (1, 0)]

/-- One iteration of the neighbour loop of `a_star` (SAR.py lines 1206-1221):
skip out-of-bounds, restricted or closed cells, otherwise relax `pos` and
push an improved node. -/
def relaxMove (gm : GameMap) (restricted : List ℕ) (cm : CostMap) (endP : Pos)
    (cpos : Pos) (cnode : NodeC) (st : AState) (mv : Pos) : AState :=
  let pos : Pos := (cpos.1 + mv.1, cpos.2 + mv.2)
  if ¬ inBounds pos ∨ gm pos ∈ restricted ∨ pos ∈ st.closed then st
  else
    let new_g : Option ℕ := (st.g_costs cpos).map (fun gv => gv + cm pos)
    if ltOpt new_g (st.g_costs pos) then
      match new_g with
      | some ng =>
        { st with
          g_costs := updFun st.g_costs pos (some ng),
          nodes := heappush st.nodes (ng + manhattan pos endP, NodeC.child pos cnode) }
      | none => st
    else st

/-- The full neighbour loop `for move in cardinal_moves` of one expansion. -/
def expandNode (gm : GameMap) (restricted : List ℕ) (cm : CostMap) (endP : Pos)
    (cpos : Pos) (cnode : NodeC) (st : AState) : AState :=
  cardinal_moves.foldl (relaxMove gm restricted cm endP cpos cnode) st

/-- The `while nodes:` loop of `a_star` (SAR.py lines 1186-1223), with explicit
fuel.  `none` is fuel exhaustion (shown unreachable below), `some (none, none)`
is the `return None, float('inf')` failure exit, and `some (some path, cost)`
is the success exit with `cost = g_costs.get(end, float('inf'))`. -/
def a_starAux (gm : GameMap) (restricted : List ℕ) (cm : CostMap) (endP : Pos) :
    ℕ → AState → Option (Option (List Pos) × Option ℕ)
| 0, _ => none
| fuel + 1, s =>
  match s.nodes with
  | [] => some (none, none)
  | e :: rest =>
    if e.2.position = endP then
      some (some e.2.chain.reverse, s.g_costs endP)
    else if e.2.position ∈ s.closed then
      a_starAux gm restricted cm endP fuel { s with nodes := rest }
    else
      a_starAux gm restricted cm endP fuel
        (expandNode gm restricted cm endP e.2.position e.2
          { nodes := rest, closed := e.2.position :: s.closed, g_costs := s.g_costs })

/-- Fuel bound: the loop runs at most once per heap insertion, and insertions
are bounded by `1 + 4 * (W*H + 1)` because every expansion closes a fresh
position that is in bounds or the start (proved as `a_star_terminates`). -/
def FUEL : ℕ := 2500

/-- Initial state `nodes = [(0, Node(start))]; closed = set(); g_costs = {start: 0}`
(SAR.py lines 1182-1184). -/
def initState (start : Pos) : AState :=
  { nodes := [(0, NodeC.root start)], closed := [],
    g_costs := updFun (fun _ => none) start (some 0) }

/-- `Game.a_star(self, start, end, restricted, cost_map=None)`
(SAR.py lines 1171-1223). -/
def a_star (gm : GameMap) (start endP : Pos) (restricted : List ℕ)
    (cost_map : Option CostMap) : Option (Option (List Pos) × Option ℕ) :=
  let cm := cost_map.getD (fun _ => 1)
  a_starAux gm restricted cm endP FUEL (initState start)

/-- `Game.turns_to_reach` (SAR.py lines 1166-1169): the cost component of an
`a_star` call with restricted tiles `[1, 4]` and the default cost map. -/
def turns_to_reach (gm : GameMap) (start endP : Pos) : Option ℕ :=
  match a_star gm start endP [1, 4] none with
  | some (_, cost) => cost
  | none => none

/-- The all-free grid of the obstacle-free scenarios (every tile kind 0). -/
def emptyGM : GameMap := fun _ => 0

/-- Number of steps recorded by a parent chain. -/
def NodeC.steps : NodeC → ℕ
| root _ => 0
| child _ par => par.steps + 1

/-- Validity of a parent chain: the root node is the search start, and every
pushed (non-root) node passed the bounds and restricted-tile checks of the
neighbour loop and is one cardinal move away from its parent. -/
def ChainOk (gm : GameMap) (restricted : List ℕ) (start : Pos) : NodeC → Prop
| NodeC.root p => p = start
| NodeC.child p par =>
    inBounds p ∧ gm p ∉ restricted ∧ manhattan p par.position = 1 ∧
      ChainOk gm restricted start par

/-- Reachability through in-bounds, non-restricted cells: the rendering of
"goal reachable from start through non-forbidden cells" used by the spec.
The start cell itself is exempt, exactly as in the search. -/
inductive ReachableR (gm : GameMap) (restricted : List ℕ) (start : Pos) : Pos → Prop
| refl : ReachableR gm restricted start start
| step {p q : Pos} : ReachableR gm restricted start p → manhattan q p = 1 →
    inBounds q → gm q ∉ restricted → ReachableR gm restricted start q

/-- The in-bounds cells as a finite set. -/
def gridFinset : Finset Pos := (Finset.Icc (0 : ℤ) 24) ×ˢ (Finset.Icc (0 : ℤ) 19)

/-- Positions that can ever appear in the heap: in-bounds cells plus the
start cell (the root node is never bounds-checked). -/
def posSet (start : Pos) : Finset Pos := insert start gridFinset

/-- Loop variant: pending heap entries plus four budget units for every
position that may still be closed. -/
def measureA (start : Pos) (s : AState) : ℕ :=
  s.nodes.length + 4 * ((posSet start) \ s.closed.toFinset).card

/-- The all-water grid used to exercise the unchecked start cell. -/
def waterGM : GameMap := fun _ => 4

/-- A grid whose single obstacle sits on the goal cell, so the goal is
unreachable. -/
def goalBlockedGM : GameMap := fun p => if p = (5, 5) then 1 else 0

/-- The default uniform cost map (`cost_map=None`). -/
def unitCM : CostMap := fun _ => 1

/-- One cardinal step from `t` towards `s`, staying inside the grid. -/
def stepToward (s t : Pos) : Pos :=
  if t.1 < s.1 then (t.1 + 1, t.2)
  else if s.1 < t.1 then (t.1 - 1, t.2)
  else if t.2 < s.2 then (t.1, t.2 + 1)
  else (t.1, t.2 - 1)

/-- The relaxation obligation recorded for a closed cell: every in-bounds
neighbour has a finite tentative cost at most one worse than the cell's
(optimal) cost. -/
def relaxProp (start : Pos) (s : AState) (p : Pos) : Prop :=
  ∀ q : Pos, inBounds q → manhattan q p = 1 →
    ∃ w, s.g_costs q = some w ∧ w ≤ manhattan start p + 1

/-- Invariant of the uniform-cost search on the obstacle-free grid, minus the
relaxation obligation (which is restated alongside, see `OptInv`/`MidInv`). -/
structure BaseInv (restricted : List ℕ) (start endP : Pos) (s : AState) : Prop where
  end_not_closed : endP ∉ s.closed
  chains : ∀ e ∈ s.nodes, ChainOk emptyGM restricted start e.2
  fkey : ∀ e ∈ s.nodes, e.1 = e.2.steps + manhattan e.2.position endP
  gdef : ∀ e ∈ s.nodes, ∃ v, s.g_costs e.2.position = some v ∧ v ≤ e.2.steps
  canon : ∀ p, p ∉ s.closed → ∀ v, s.g_costs p = some v →
    ∃ e ∈ s.nodes, e.2.position = p ∧ e.1 = v + manhattan p endP
  glower : ∀ p v, s.g_costs p = some v → manhattan start p ≤ v
  gclosed : ∀ p ∈ s.closed, s.g_costs p = some (manhattan start p)
  gstart : s.g_costs start = some 0
  sorted : s.nodes.Pairwise (fun a b => a.1 ≤ b.1)

/-- The full invariant: every closed cell has been relaxed. -/
def OptInv (restricted : List ℕ) (start endP : Pos) (s : AState) : Prop :=
  BaseInv restricted start endP s ∧ ∀ p ∈ s.closed, relaxProp start s p

/-- The invariant in the middle of an expansion: the freshly closed cell `cex`
is exempt from the relaxation obligation until its neighbour loop finishes. -/
def MidInv (restricted : List ℕ) (start endP cex : Pos) (s : AState) : Prop :=
  BaseInv restricted start endP s ∧ ∀ p ∈ s.closed, p ≠ cex → relaxProp start s p

/-- Enemy kinds: `PatrolObstacle` and its subclass `AggressiveObstacle`
(the `isinstance(o, AggressiveObstacle)` tests become a kind test). -/
inductive EnemyKind | patrol | aggressive
deriving DecidableEq

/-- An enemy: position and kind; aggressive enemies additionally carry the
detection radius (constructor default 6, SAR.py line 172) and the mode flag
(SAR.py line 173). -/
structure Enemy where
  x : ℤ
  y : ℤ
  kind : EnemyKind
  detection_radius : ℕ := 6
  mode : String := "patrol"

/-- Threat threshold of the scan in `update_ground` (SAR.py lines 843-852):
`detection_radius + 2` (plus 1 in attack mode) for aggressive enemies,
3 for patrol enemies. -/
def max_turns (o : Enemy) : ℕ :=
  match o.kind with
  | EnemyKind.aggressive =>
    if o.mode = "attack" then o.detection_radius + 2 + 1 else o.detection_radius + 2
  | EnemyKind.patrol => 3

/-- One enemy's threat test in `update_ground` (SAR.py lines 841-855):
`turns_to_reach((o.x, o.y), pos) <= max_turns` (false when the cost is the
infinite failure value). -/
def isThreat (gm : GameMap) (o : Enemy) (pos : Pos) : Bool :=
  leOptNat (turns_to_reach gm (o.x, o.y) pos) (max_turns o)

/-- The per-tick threat list built by `update_ground` (SAR.py lines 840-855). -/
def threats_of (gm : GameMap) (enemies : List Enemy) (pos : Pos) : List Enemy :=
  enemies.filter (fun o => isThreat gm o pos)

/-- Subset of the `Game` state consulted by `is_dead_end`,
`create_dynamic_cost_map` and the planners. -/
structure GState where
  game_map : GameMap
  collectibles : List Pos := []
  land_collectibles : List Pos := []
  dynamic_obstacles : List Enemy := []
  agent : Pos := (1, 1)

/-- `Game.is_dead_end` (SAR.py lines 449-465): a non-target cell with at most
one in-bounds non-Obstacle cardinal neighbour. -/
def is_dead_end (g : GState) (p : Pos) : Bool :=
  let targets := g.collectibles ++ g.land_collectibles
  if p ∈ targets then false
  else
    decide ((([((-1 : ℤ), (0 : ℤ)), (1, 0), (0, -1), (0, 1)] : List Pos).filter
      (fun d => decide (inBounds (p.1 + d.1, p.2 + d.2)) &&
        decide (g.game_map (p.1 + d.1, p.2 + d.2) ≠ 1))).length ≤ 1)

/-- Terrain base cost plus dead-end penalty (SAR.py lines 1114-1123):
`1 + tile*5`, plus 4000 (escape) or 200 otherwise on dead-end cells. -/
def baseCost (g : GState) (escape : Bool) (p : Pos) : ℕ :=
  1 + g.game_map p * 5 +
    (if is_dead_end g p then (if escape then 4000 else 200) else 0)

/-- Ring penalty of an aggressive enemy by Manhattan ring (the `elif` chain of
SAR.py lines 1139-1149). -/
def ringPenalty (r E dist : ℕ) : ℕ :=
  if dist = 0 then 8000
  else if dist ≤ 1 then 3000
  else if dist ≤ 2 then 1500
  else if dist ≤ r then 800
  else if dist ≤ E then 300
  else 0

/-- Per-cell contribution of one enemy to the dynamic cost map.  The source
(SAR.py lines 1126-1162) iterates `dx, dy` over the bounding square of side
`2*extended_radius + 1` and bumps each in-bounds cell once, so the additive
per-cell view is exact: an aggressive enemy contributes its ring penalty plus
the flat attack bonus on in-bounds cells of the square, a patrol enemy
contributes 2500 on its own cell and 1200 on passable in-bounds cardinal
neighbours. -/
def enemyContribution (g : GState) (escape : Bool) (obs : Enemy) (p : Pos) : ℕ :=
  match obs.kind with
  | EnemyKind.aggressive =>
    let r := obs.detection_radius
    let E := if escape then r + 4 else r + 2
    if (p.1 - obs.x).natAbs ≤ E ∧ (p.2 - obs.y).natAbs ≤ E ∧ inBounds p then
      ringPenalty r E (manhattan p (obs.x, obs.y)) +
        (if obs.mode = "attack" then 2000 else 0)
    else 0
  | EnemyKind.patrol =>
    (if p = (obs.x, obs.y) then 2500 else 0) +
      (if manhattan p (obs.x, obs.y) = 1 ∧ inBounds p ∧ g.game_map p ∉ [1, 4]
        then 1200 else 0)

/-- `Game.create_dynamic_cost_map` (SAR.py lines 1109-1164): base terrain and
dead-end cost plus the additive enemy penalties. -/
def create_dynamic_cost_map (g : GState) (escape : Bool) : CostMap :=
  fun p =>
    baseCost g escape p +
      (g.dynamic_obstacles.map (fun obs => enemyContribution g escape obs p)).sum

/-- The aggressive-enemy contribution as claim C5 words it: ring penalties by
Manhattan distance, attack bonus of 2000 exactly on the Manhattan influence
zone (distance ≤ extended radius).  Second, clearly named definition written
from the claim's words for the refinement comparison with the source's
`enemyContribution`. -/
def claimC5_attack (escape : Bool) (obs : Enemy) (p : Pos) : ℕ :=
  let r := obs.detection_radius
  let E := if escape then r + 4 else r + 2
  ringPenalty r E (manhattan p (obs.x, obs.y)) +
    (if obs.mode = "attack" ∧ manhattan p (obs.x, obs.y) ≤ E then 2000 else 0)

def enemyC5 : Enemy := ⟨10, 10, EnemyKind.aggressive, 6, "attack"⟩

def gC5 : GState := { game_map := emptyGM, dynamic_obstacles := [enemyC5] }

/-- Mode switch of `AggressiveObstacle.update` (SAR.py lines 178-181): attack
iff the Euclidean distance to the agent is at most the detection radius.  The
source compares `math.hypot(...) <= radius` on integer coordinates; for
integers and an integer radius this is exactly the squared comparison
embedded here (correctly rounded square roots preserve the order, and the
boundary cases are exact). -/
def aggressiveMode (o : Enemy) (agent : Pos) : String :=
  if (o.x - agent.1) ^ 2 + (o.y - agent.2) ^ 2 ≤ (o.detection_radius : ℤ) ^ 2
  then "attack" else "patrol"

/-- Deterministic pursuit step of `AggressiveObstacle.update`
(SAR.py lines 183-195): in attack mode plan from the enemy's position to the
agent's position forbidding {Obstacle, Water}; with a path longer than one
cell step to `path_res[1]`.  `none` stands for the random-walk fallback
(patrol behaviour), whose random choice is outside this embedding. -/
def aggressive_next (gm : GameMap) (o : Enemy) (agent : Pos) : Option Pos :=
  if aggressiveMode o agent = "attack" then
    match a_star gm (o.x, o.y) agent [1, 4] none with
    | some (some path, _) => if path.length > 1 then path.get? 1 else none
    | _ => none
  else none

/-- The pursuit step as claim C8 words it: a plan from the agent's position
to the enemy's position.  Second, clearly named definition written from the
claim's words for the refinement comparison with `aggressive_next`. -/
def claimC8_next (gm : GameMap) (o : Enemy) (agent : Pos) : Option Pos :=
  if aggressiveMode o agent = "attack" then
    match a_star gm agent (o.x, o.y) [1, 4] none with
    | some (some path, _) => if path.length > 1 then path.get? 1 else none
    | _ => none
  else none

/-- One-dimensional corridor of free cells from (1,1) to (5,1); every path in
it is unique, so the comparison is independent of heap tie-breaking. -/
def corridorGM : GameMap := fun p => if p.2 = 1 ∧ 1 ≤ p.1 ∧ p.1 ≤ 5 then 0 else 1

def enemyC8 : Enemy := ⟨5, 1, EnemyKind.aggressive, 6, "patrol"⟩

/-- Reclassification of a failed mission (SAR.py lines 1236-1243): a failure
becomes "partial" when strictly more than 70% of the collectibles were
gathered.  The source compares `collected / total > 0.7` on floats; for the
collectible totals this program creates (at most 10) the comparison is exact
and coincides with the rational test `10 * collected > 7 * total` embedded
here (in particular `7/10 > 0.7` is false in both readings). -/
def reclassify (result : String) (total left : ℕ) : String :=
  if result = "failed" ∧ 0 < total ∧ 10 * (total - left) > 7 * total then "partial"
  else result

/-- Mission-termination flags and bookkeeping of `Game` touched by
`end_mission` (SAR.py lines 1225-1267).  The persisted-statistics side effect
(`update_ground_robot_stats`, a file-backed collaborator) is modelled as an
event log of the recorded outcomes. -/
structure MState where
  mission_complete : Bool := false
  mission_failed : Bool := false
  mission_partial : Bool := false
  final_time : ℕ := 0
  stats_log : List (String × ℕ × ℕ × ℕ) := []

/-- Per-mission constants read by `end_mission`: mode, collectible counts,
enemy count and the elapsed time at the call. -/
structure MissionCtx where
  game_mode : String
  total_collectibles : ℕ
  collectibles_left : ℕ
  enemies_count : ℕ
  now : ℕ

/-- `Game.end_mission` (SAR.py lines 1225-1267): an early return leaves the
state untouched when any flag is already set; otherwise the final time is
recorded, a failure may be reclassified as partial, ground-mode statistics
are recorded, and exactly one flag is set.  Modes without a
`total_collectibles` attribute are modelled by `total_collectibles = 0`,
which disables reclassification exactly as the `hasattr` guard does. -/
def end_mission (ctx : MissionCtx) (st : MState) (result : String) : MState :=
  if st.mission_complete || st.mission_failed || st.mission_partial then st
  else
    let result2 := reclassify result ctx.total_collectibles ctx.collectibles_left
    let log2 :=
      if ctx.game_mode = "ground" then
        (result2, ctx.now, ctx.total_collectibles - ctx.collectibles_left,
          ctx.enemies_count) :: st.stats_log
      else st.stats_log
    if result2 = "success" then
      { st with mission_complete := true, final_time := ctx.now, stats_log := log2 }
    else if result2 = "partial" then
      { st with mission_partial := true, final_time := ctx.now, stats_log := log2 }
    else
      { st with mission_failed := true, final_time := ctx.now, stats_log := log2 }

/-- At most one termination flag is set. -/
def flagsAtMostOne (st : MState) : Prop :=
  (if st.mission_complete then 1 else 0) + (if st.mission_failed then 1 else 0) +
    (if st.mission_partial then 1 else 0) ≤ 1

instance (st : MState) : Decidable (flagsAtMostOne st) := by
  unfold flagsAtMostOne; infer_instance

/-- A mission's life as seen by `end_mission`: any sequence of calls starting
from the freshly reset state of `setup_new_mission` (all flags false). -/
def runMissions (evs : List (MissionCtx × String)) : MState :=
  evs.foldl (fun st ev => end_mission ev.1 st ev.2) {}

/-- The reclassification as claim C9 words it: partial as soon as at least
70% was gathered.  Second, clearly named definition written from the claim's
words for the refinement comparison with `reclassify`. -/
def claimC9_reclassify (result : String) (total left : ℕ) : String :=
  if result = "failed" ∧ 0 < total ∧ 10 * (total - left) ≥ 7 * total then "partial"
  else result

/-- Minimum of a list of turn counts with the infinite failure value as
identity, mirroring Python's `min(...)` over int-or-inf values.  The callers
only evaluate it on non-empty enemy lists. -/
def optMin : Option ℕ → Option ℕ → Option ℕ
| none, b => b
| some a, none => some a
| some a, some b => some (min a b)

/-- `min(self.turns_to_reach((t.x, t.y), target) for t in threats)`
(SAR.py lines 1070 and 1098). -/
def minTurns (gm : GameMap) (target : Pos) (ts : List Enemy) : Option ℕ :=
  ts.foldr (fun t acc => optMin (turns_to_reach gm (t.x, t.y) target) acc) none

/-- `agent_steps < enemy_steps - 1` (SAR.py line 1101) with the infinite
enemy value: always true against infinity, else `a < m - 1` on integers. -/
def lt_minus_one (a : ℕ) : Option ℕ → Bool
| none => true
| some m => decide (a + 1 < m)

/-- Stable insertion used to model Python's stable `sorted(...)` by Manhattan
distance (SAR.py lines 1087-1088): the output of any stable sort is unique,
so this insertion sort computes exactly the source's candidate order. -/
def insertByDist (agent c : Pos) : List Pos → List Pos
| [] => [c]
| x :: xs =>
  if manhattan c agent ≤ manhattan x agent then c :: x :: xs
  else x :: insertByDist agent c xs

def sorted_by_dist (agent : Pos) : List Pos → List Pos
| [] => []
| c :: cs => insertByDist agent c (sorted_by_dist agent cs)

/-- The candidate loop of `find_brave_path` (SAR.py lines 1090-1105): skip
dead-end or unreachable targets, and for the first target with the safety
margin plan with the escape cost map and return the path if truthy. -/
def find_brave_loop (g : GState) (ath : List Enemy) : List Pos → Option (List Pos)
| [] => none
| target :: rest =>
  if is_dead_end g target then find_brave_loop g ath rest
  else
    match turns_to_reach g.game_map g.agent target with
    | none => find_brave_loop g ath rest
    | some agent_steps =>
      if lt_minus_one agent_steps (minTurns g.game_map target ath) then
        match a_star g.game_map g.agent target [4, 1]
            (some (create_dynamic_cost_map g true)) with
        | some (some path, _) =>
          if path = [] then find_brave_loop g ath rest else some path
        | _ => find_brave_loop g ath rest
      else find_brave_loop g ath rest

/-- `Game.find_brave_path` (SAR.py lines 1076-1107). -/
def find_brave_path (g : GState) (threats : List Enemy) : Option (List Pos) :=
  let aggressive_threats :=
    threats.filter (fun t => decide (t.kind = EnemyKind.aggressive))
  if aggressive_threats.isEmpty then none
  else find_brave_loop g aggressive_threats (sorted_by_dist g.agent g.collectibles)

def corridor10GM : GameMap := fun p => if p.2 = 1 ∧ 1 ≤ p.1 ∧ p.1 ≤ 10 then 0 else 1

def gC6 : GState := { game_map := corridor10GM, collectibles := [(3, 1)], agent := (1, 1) }

def threatsC6 : List Enemy := [⟨10, 1, EnemyKind.aggressive, 6, "patrol"⟩]

/-- Consecutive integers starting at `a`. -/
def rangeIntAux (a : ℤ) : ℕ → List ℤ
| 0 => []
| n + 1 => a :: rangeIntAux (a + 1) n

/-- Integer range `a..b` (inclusive), modelling the `range(-r, r + 1)`
offsets of the candidate loops. -/
def rangeInt (a b : ℤ) : List ℤ := rangeIntAux a (b - a + 1).toNat

/-- Candidate escape cells (SAR.py lines 1053-1061): the Manhattan rings of
radius 2 through 7 around the agent, restricted to in-bounds cells whose tile
is neither Obstacle nor Water. -/
def escape_candidates (g : GState) : List Pos :=
  (List.range' 2 6).flatMap (fun r =>
    (rangeInt (-(r : ℤ)) r).flatMap (fun i =>
      (rangeInt (-(r : ℤ)) r).filterMap (fun j =>
        if i.natAbs + j.natAbs = r ∧
            inBounds (g.agent.1 + i, g.agent.2 + j) ∧
            g.game_map (g.agent.1 + i, g.agent.2 + j) ∉ [1, 4] then
          some (g.agent.1 + i, g.agent.2 + j)
        else none)))

/-- Score of an accepted escape candidate (SAR.py line 1070):
`min(turnsToReach(threat, spot)) * 1.5 - len(path)`, infinite when no threat
can reach the spot.  The multiplication by 1.5 and the subtraction are exact
in the source's floats for these magnitudes, so exact rationals model them. -/
def escape_score (gm : GameMap) (threats : List Enemy) (spot : Pos)
    (path : List Pos) : Option ℚ :=
  match minTurns gm spot threats with
  | none => none
  | some m => some ((m : ℚ) * (3 / 2) - (path.length : ℚ))

/-- `score > best_score` with `best_score` starting at `-inf` (outer `none`)
and scores possibly `+inf` (inner `none`). -/
def gtScore : Option ℚ → Option (Option ℚ) → Bool
| _, none => true
| none, some none => false
| none, some (some _) => true
| some _, some none => false
| some a, some (some b) => decide (b < a)

/-- One candidate evaluation of `find_escape_path` (SAR.py lines 1064-1072):
skip occupied spots, plan with the escape cost map, reject paths through any
enemy's cell, keep the best score. -/
def escape_step (g : GState) (cost_map : CostMap) (threats allEnemies : List Enemy)
    (best : Option (List Pos) × Option (Option ℚ)) (spot : Pos) :
    Option (List Pos) × Option (Option ℚ) :=
  if ∃ o ∈ allEnemies, spot = (o.x, o.y) then best
  else
    match a_star g.game_map g.agent spot [4, 1] (some cost_map) with
    | some (some path, _) =>
      if path ≠ [] ∧ ¬ ∃ s ∈ path, ∃ o ∈ allEnemies, s = (o.x, o.y) then
        if gtScore (escape_score g.game_map threats spot path) best.2 then
          (some path, some (escape_score g.game_map threats spot path))
        else best
      else best
    | _ => best

/-- `Game.find_escape_path` (SAR.py lines 1043-1074). -/
def find_escape_path (g : GState) (threats allEnemies : List Enemy) :
    Option (List Pos) :=
  ((escape_candidates g).foldl
    (escape_step g (create_dynamic_cost_map g true) threats allEnemies)
    (none, none)).1

/-- Soundness property carried through the candidate fold. -/
def escapeBestOK (g : GState) (allEnemies : List Enemy) (S : List Pos)
    (best : Option (List Pos) × Option (Option ℚ)) : Prop :=
  ∀ p, best.1 = some p →
    p ≠ [] ∧ (∀ c ∈ p, ∀ o ∈ allEnemies, c ≠ (o.x, o.y)) ∧
      ∃ spot ∈ S, p.getLast? = some spot

def gC7 : GState :=
  { game_map := fun p => if p.2 = 1 ∧ 1 ≤ p.1 ∧ p.1 ≤ 3 then 0 else 1,
    agent := (1, 1) }

def enemiesC7 : List Enemy := [⟨10, 10, EnemyKind.patrol, 6, "patrol"⟩]

/-! ### Theorems -/

theorem manhattan_self (a : Pos) : manhattan a a = 0 := by
  simp [manhattan]

theorem manhattan_comm (a b : Pos) : manhattan a b = manhattan b a := by
  unfold manhattan; omega

theorem manhattan_triangle (a b c : Pos) :
    manhattan a c ≤ manhattan a b + manhattan b c := by
  unfold manhattan; omega

/-- Neighbour characterisation: `q` is one cardinal move away from `p` iff the
two cells are at Manhattan distance 1. -/
theorem adjacent_iff (p q : Pos) :
    (∃ mv ∈ cardinal_moves, q = (p.1 + mv.1, p.2 + mv.2)) ↔ manhattan q p = 1 := by
  constructor
  · rintro ⟨mv, hmv, rfl⟩
    simp only [cardinal_moves, List.mem_cons, List.not_mem_nil, or_false] at hmv
    rcases hmv with rfl | rfl | rfl | rfl <;> simp [manhattan]
  · intro h
    unfold manhattan at h
    obtain ⟨qx, qy⟩ := q
    obtain ⟨px, py⟩ := p
    simp only at h ⊢
    rcases Int.natAbs_eq (qx - px) with hx | hx <;>
      rcases Int.natAbs_eq (qy - py) with hy | hy
    all_goals {
      simp only [cardinal_moves, List.mem_cons]
      by_cases h1 : (qx - px).natAbs = 0
      · refine ⟨if qy - py = 1 then ((0 : ℤ), (1 : ℤ)) else ((0 : ℤ), (-1 : ℤ)), by
          split <;> simp, ?_⟩
        split <;> (rename_i hsgn) <;> (refine Prod.ext ?_ ?_ <;> simp <;> omega)
      · refine ⟨if qx - px = 1 then ((1 : ℤ), (0 : ℤ)) else ((-1 : ℤ), (0 : ℤ)), by
          split <;> simp, ?_⟩
        split <;> (rename_i hsgn) <;> (refine Prod.ext ?_ ?_ <;> simp <;> omega)
    }

theorem mem_heappush {l : List Entry} {e a : Entry} :
    a ∈ heappush l e ↔ a = e ∨ a ∈ l := by
  induction l with
  | nil => simp [heappush]
  | cons x xs ih =>
    unfold heappush
    split
    · simp [List.mem_cons]
    · simp only [List.mem_cons, ih]; tauto

theorem heappush_length (l : List Entry) (e : Entry) :
    (heappush l e).length = l.length + 1 := by
  induction l with
  | nil => rfl
  | cons x xs ih => unfold heappush; split <;> simp [ih]

theorem heappush_sorted {l : List Entry} {e : Entry}
    (h : l.Pairwise (fun a b => a.1 ≤ b.1)) :
    (heappush l e).Pairwise (fun a b => a.1 ≤ b.1) := by
  induction l with
  | nil => simp [heappush]
  | cons x xs ih =>
    rcases List.pairwise_cons.1 h with ⟨hx, hxs⟩
    unfold heappush
    split
    · rename_i hlt
      refine List.pairwise_cons.2 ⟨?_, h⟩
      intro b hb
      rcases List.mem_cons.1 hb with rfl | hb
      · omega
      · exact le_trans (le_of_lt hlt) (hx b hb)
    · rename_i hge
      refine List.pairwise_cons.2 ⟨?_, ih hxs⟩
      intro b hb
      rcases mem_heappush.1 hb with rfl | hb
      · omega
      · exact hx b hb

theorem sorted_head_le {e : Entry} {rest : List Entry}
    (h : (e :: rest).Pairwise (fun a b => a.1 ≤ b.1)) :
    ∀ a ∈ e :: rest, e.1 ≤ a.1 := by
  intro a ha
  rcases List.mem_cons.1 ha with rfl | ha
  · exact le_refl _
  · exact (List.pairwise_cons.1 h).1 a ha

theorem NodeC.chain_length (n : NodeC) : n.chain.length = n.steps + 1 := by
  induction n with
  | root p => rfl
  | child p par ih => simp [NodeC.chain, NodeC.steps, ih]

theorem NodeC.chain_ne_nil (n : NodeC) : n.chain ≠ [] := by
  cases n <;> simp [NodeC.chain]

theorem NodeC.chain_head (n : NodeC) : n.chain.head? = some n.position := by
  cases n <;> rfl

theorem ChainOk.chain_getLast {gm restricted start} {n : NodeC}
    (h : ChainOk gm restricted start n) : n.chain.getLast? = some start := by
  induction n with
  | root p => exact congrArg some h
  | child p par ih =>
    have hpar := ih h.2.2.2
    rw [NodeC.chain]
    cases hpc : par.chain with
    | nil => exact absurd hpc par.chain_ne_nil
    | cons a l =>
      rw [List.getLast?_cons_cons]
      rw [hpc] at hpar
      exact hpar

theorem ChainOk.chain_dropLast {gm restricted start} {n : NodeC}
    (h : ChainOk gm restricted start n) :
    ∀ p ∈ n.chain.dropLast, inBounds p ∧ gm p ∉ restricted := by
  induction n with
  | root q => simp [NodeC.chain]
  | child q par ih =>
    have hrec := ih h.2.2.2
    intro p hp
    rw [NodeC.chain, List.dropLast_cons_of_ne_nil par.chain_ne_nil] at hp
    rcases List.mem_cons.1 hp with rfl | hp
    · exact ⟨h.1, h.2.1⟩
    · exact hrec p hp

theorem ChainOk.reachable {gm restricted start} {n : NodeC}
    (h : ChainOk gm restricted start n) :
    ReachableR gm restricted start n.position := by
  induction n with
  | root p => exact h ▸ ReachableR.refl
  | child p par ih =>
    exact ReachableR.step (ih h.2.2.2) h.2.2.1 h.1 h.2.1

theorem relaxMove_closed (gm restricted cm endP cpos cnode st mv) :
    (relaxMove gm restricted cm endP cpos cnode st mv).closed = st.closed := by
  unfold relaxMove
  dsimp only
  split
  · rfl
  · split
    · split <;> rfl
    · rfl

theorem relaxMove_nodes_cases (gm restricted cm endP cpos cnode st mv) :
    ∀ a ∈ (relaxMove gm restricted cm endP cpos cnode st mv).nodes,
      a ∈ st.nodes ∨
      (inBounds a.2.position ∧ gm a.2.position ∉ restricted ∧
        a.2.position ∉ st.closed ∧ a.2 = NodeC.child a.2.position cnode ∧
        a.2.position = (cpos.1 + mv.1, cpos.2 + mv.2)) := by
  intro a ha
  unfold relaxMove at ha
  dsimp only at ha
  split at ha
  · exact Or.inl ha
  · rename_i hguard
    push_neg at hguard
    split at ha
    · split at ha
      · rename_i ng hng
        rcases mem_heappush.1 ha with rfl | ha
        · exact Or.inr ⟨hguard.1, hguard.2.1, hguard.2.2, rfl, rfl⟩
        · exact Or.inl ha
      · exact Or.inl ha
    · exact Or.inl ha

theorem relaxMove_nodes_length (gm restricted cm endP cpos cnode st mv) :
    (relaxMove gm restricted cm endP cpos cnode st mv).nodes.length ≤
      st.nodes.length + 1 := by
  unfold relaxMove
  dsimp only
  split
  · omega
  · split
    · split
      · simp [heappush_length]
      · omega
    · omega

theorem foldl_relax_closed (gm restricted cm endP cpos cnode) :
    ∀ (ms : List Pos) (st : AState),
      (ms.foldl (relaxMove gm restricted cm endP cpos cnode) st).closed = st.closed := by
  intro ms
  induction ms with
  | nil => intro st; rfl
  | cons m ms ih =>
    intro st
    simp only [List.foldl_cons, ih, relaxMove_closed]

theorem foldl_relax_nodes_cases (gm restricted cm endP cpos cnode) :
    ∀ (ms : List Pos) (st : AState) (a : Entry),
      a ∈ (ms.foldl (relaxMove gm restricted cm endP cpos cnode) st).nodes →
      a ∈ st.nodes ∨
      (inBounds a.2.position ∧ gm a.2.position ∉ restricted ∧
        a.2.position ∉ st.closed ∧ a.2 = NodeC.child a.2.position cnode ∧
        ∃ mv ∈ ms, a.2.position = (cpos.1 + mv.1, cpos.2 + mv.2)) := by
  intro ms
  induction ms with
  | nil => intro st a ha; exact Or.inl ha
  | cons m ms ih =>
    intro st a ha
    rcases ih (relaxMove gm restricted cm endP cpos cnode st m) a ha with h | h
    · rcases relaxMove_nodes_cases gm restricted cm endP cpos cnode st m a h with h2 | h2
      · exact Or.inl h2
      · exact Or.inr ⟨h2.1, h2.2.1, h2.2.2.1, h2.2.2.2.1,
          m, List.mem_cons_self m ms, h2.2.2.2.2⟩
    · refine Or.inr ⟨h.1, h.2.1, ?_, h.2.2.2.1, ?_⟩
      · rw [relaxMove_closed] at h; exact h.2.2.1
      · obtain ⟨mv, hmv, hp⟩ := h.2.2.2.2
        exact ⟨mv, List.mem_cons_of_mem m hmv, hp⟩

theorem foldl_relax_length (gm restricted cm endP cpos cnode) :
    ∀ (ms : List Pos) (st : AState),
      (ms.foldl (relaxMove gm restricted cm endP cpos cnode) st).nodes.length ≤
        st.nodes.length + ms.length := by
  intro ms
  induction ms with
  | nil => intro st; simp
  | cons m ms ih =>
    intro st
    calc (List.foldl _ (relaxMove gm restricted cm endP cpos cnode st m) ms).nodes.length
        ≤ (relaxMove gm restricted cm endP cpos cnode st m).nodes.length + ms.length :=
          ih _
      _ ≤ st.nodes.length + (m :: ms).length := by
          have := relaxMove_nodes_length gm restricted cm endP cpos cnode st m
          simp only [List.length_cons]
          omega

/-- Every entry of the heap during a search holds a valid chain; the loop
preserves this and any successful result is a reconstructed valid chain
ending at `end`, while the failure exit is exactly `(None, inf)`. -/
theorem a_starAux_sound (gm : GameMap) (restricted : List ℕ) (cm : CostMap)
    (endP start : Pos) :
    ∀ (fuel : ℕ) (s : AState) (res : Option (List Pos) × Option ℕ),
      (∀ e ∈ s.nodes, ChainOk gm restricted start e.2) →
      a_starAux gm restricted cm endP fuel s = some res →
      (res.1 = none ∧ res.2 = none) ∨
      (∃ n, ChainOk gm restricted start n ∧ n.position = endP ∧
        res.1 = some n.chain.reverse) := by
  intro fuel
  induction fuel with
  | zero => intro s res _ h; exact absurd h (by simp [a_starAux])
  | succ fuel ih =>
    intro s res hinv h
    rw [a_starAux] at h
    rcases hs : s.nodes with _ | ⟨e, rest⟩
    · rw [hs] at h
      simp only [Option.some_inj] at h
      subst h
      exact Or.inl ⟨rfl, rfl⟩
    · rw [hs] at h
      dsimp only at h
      split at h
      · rename_i hend
        simp only [Option.some_inj] at h
        subst h
        exact Or.inr ⟨e.2, hinv e (hs ▸ List.mem_cons_self e rest), hend, rfl⟩
      · split at h
        · exact ih _ res (fun a ha => hinv a (hs ▸ List.mem_cons_of_mem e ha)) h
        · rename_i hend hcl
          refine ih _ res ?_ h
          intro a ha
          rcases foldl_relax_nodes_cases gm restricted cm endP e.2.position e.2
              cardinal_moves _ a ha with h2 | h2
          · exact hinv a (hs ▸ List.mem_cons_of_mem e h2)
          · obtain ⟨hb, hr, _, hchild, mv, hmv, hp⟩ := h2
            have hadj : manhattan a.2.position e.2.position = 1 :=
              (adjacent_iff e.2.position a.2.position).1 ⟨mv, hmv, hp⟩
            have hok : ChainOk gm restricted start e.2 :=
              hinv e (hs ▸ List.mem_cons_self e rest)
            rw [hchild]
            exact ⟨hb, hr, hadj, hok⟩

theorem mem_gridFinset {p : Pos} : p ∈ gridFinset ↔ inBounds p := by
  obtain ⟨x, y⟩ := p
  simp only [gridFinset, Finset.mem_product, Finset.mem_Icc, inBounds,
    GRID_WIDTH_CELLS, GRID_HEIGHT_CELLS]
  omega

theorem gridFinset_card : gridFinset.card = 500 := by
  rw [gridFinset, Finset.card_product, Int.card_Icc, Int.card_Icc]
  rfl

theorem posSet_card_le (start : Pos) : (posSet start).card ≤ 501 := by
  calc (posSet start).card ≤ gridFinset.card + 1 := Finset.card_insert_le _ _
    _ = 501 := by rw [gridFinset_card]

theorem a_starAux_term (gm : GameMap) (restricted : List ℕ) (cm : CostMap)
    (endP start : Pos) :
    ∀ (fuel : ℕ) (s : AState),
      (∀ e ∈ s.nodes, e.2.position ∈ posSet start) →
      measureA start s < fuel →
      a_starAux gm restricted cm endP fuel s ≠ none := by
  intro fuel
  induction fuel with
  | zero => intro s _ hm; exact absurd hm (by omega)
  | succ fuel ih =>
    intro s hpos hm
    rw [a_starAux]
    rcases hs : s.nodes with _ | ⟨e, rest⟩
    · simp
    · dsimp only
      split
      · simp
      · split
        · refine ih _ (fun a ha => hpos a (hs ▸ List.mem_cons_of_mem e ha)) ?_
          unfold measureA at hm ⊢
          dsimp only
          rw [hs] at hm
          simp only [List.length_cons] at hm
          omega
        · rename_i hend hcl
          set p := e.2.position with hp
          set s1 : AState :=
            { nodes := rest, closed := p :: s.closed, g_costs := s.g_costs } with hs1
          refine ih _ ?_ ?_
          · intro a ha
            rcases foldl_relax_nodes_cases gm restricted cm endP p e.2
                cardinal_moves s1 a ha with h | h
            · exact hpos a (hs ▸ List.mem_cons_of_mem e h)
            · exact Finset.mem_insert_of_mem (mem_gridFinset.2 h.1)
          · have hplen := foldl_relax_length gm restricted cm endP p e.2 cardinal_moves s1
            have hclosed : (expandNode gm restricted cm endP p e.2 s1).closed =
                p :: s.closed :=
              foldl_relax_closed gm restricted cm endP p e.2 cardinal_moves s1
            have hplen2 : (expandNode gm restricted cm endP p e.2 s1).nodes.length ≤
                rest.length + 4 := by
              unfold expandNode
              simpa [cardinal_moves] using hplen
            unfold measureA at hm ⊢
            rw [hclosed]
            have hpmem : p ∈ posSet start \ s.closed.toFinset := by
              refine Finset.mem_sdiff.2 ⟨hpos e (hs ▸ List.mem_cons_self e rest), ?_⟩
              simpa [List.mem_toFinset] using hcl
            have hcard : (posSet start \ (p :: s.closed).toFinset).card =
                (posSet start \ s.closed.toFinset).card - 1 := by
              rw [List.toFinset_cons, Finset.sdiff_insert,
                Finset.card_erase_of_mem hpmem]
            have hcardpos : 0 < (posSet start \ s.closed.toFinset).card :=
              Finset.card_pos.2 ⟨p, hpmem⟩
            rw [hs] at hm
            simp only [List.length_cons] at hm
            rw [hcard]
            omega

/-- The search always terminates: the fuel bound is never reached. -/
theorem a_star_total (gm : GameMap) (start endP : Pos) (restricted : List ℕ)
    (cost_map : Option CostMap) :
    a_star gm start endP restricted cost_map ≠ none := by
  unfold a_star
  refine a_starAux_term _ _ _ _ start FUEL (initState start) ?_ ?_
  · intro e he
    rcases List.mem_singleton.1 he with rfl
    exact Finset.mem_insert_self start gridFinset
  · unfold measureA initState FUEL
    simp only [List.length_singleton, List.toFinset_nil, Finset.sdiff_empty]
    have := posSet_card_le start
    omega

theorem reverse_tail_mem {l : List Pos} {q : Pos} (hq : q ∈ l.reverse.tail) :
    q ∈ l.dropLast := by
  rcases l.eq_nil_or_concat with rfl | ⟨l2, a, rfl⟩
  · simp at hq
  · rw [List.concat_eq_append, List.reverse_append] at hq
    simp only [List.reverse_cons, List.reverse_nil, List.nil_append,
      List.singleton_append, List.tail_cons] at hq
    rw [List.concat_eq_append, List.dropLast_concat]
    simpa using hq

/-- General soundness of a finished search, phrased on the public wrapper:
any returned path starts at `start`, ends at `end`, and every cell after the
first passed the bounds and forbidden-tile checks. -/
theorem a_star_path_shape (gm : GameMap) (start endP : Pos) (restricted : List ℕ)
    (cost_map : Option CostMap) (p : List Pos) (c : Option ℕ)
    (h : a_star gm start endP restricted cost_map = some (some p, c)) :
    p.head? = some start ∧ p.getLast? = some endP ∧
      ∀ q ∈ p.tail, inBounds q ∧ gm q ∉ restricted := by
  have hinv : ∀ e ∈ (initState start).nodes, ChainOk gm restricted start e.2 := by
    intro e he
    rcases List.mem_singleton.1 he with rfl
    exact rfl
  rcases a_starAux_sound gm restricted _ endP start FUEL (initState start)
      (some p, c) hinv h with ⟨h1, _⟩ | ⟨n, hok, hpos, h1⟩
  · exact absurd h1 (by simp)
  · simp only [Option.some_inj] at h1
    subst h1
    refine ⟨?_, ?_, ?_⟩
    · rw [List.head?_reverse]
      exact hok.chain_getLast
    · rw [List.getLast?_reverse, n.chain_head, hpos]
    · intro q hq
      exact hok.chain_dropLast q (reverse_tail_mem hq)

theorem reachable_dest {gm restricted start p} (h : ReachableR gm restricted start p) :
    p = start ∨ (inBounds p ∧ gm p ∉ restricted) := by
  cases h with
  | refl => exact Or.inl rfl
  | step _ _ hb hr => exact Or.inr ⟨hb, hr⟩

/-- Claim C2, counterexample: calling `a_star` with the start cell on a
forbidden tile kind returns a non-empty path whose start cell is of a
forbidden kind — the search never checks the start cell, so the claim as
stated (no cell of the path, including the start cell, is forbidden) fails. -/
theorem C2_counterexample :
    ∃ p, a_star waterGM (1, 1) (1, 1) [1, 4] none = some (some p, some 0) ∧
      p ≠ [] ∧ ∃ cell ∈ p, waterGM cell ∈ [1, 4] := by
  refine ⟨[(1, 1)], by decide, by simp, (1, 1), by simp, by simp [waterGM]⟩

/-- Claim C2 (amended): for every call that returns a path, every cell of the
path except the start cell is in bounds and of a non-forbidden tile kind; the
path runs from the start cell to the goal cell.  (The start cell itself is
exempt: the search never bounds- or tile-checks it.) -/
theorem C2_path_avoids_forbidden (gm : GameMap) (start endP : Pos)
    (restricted : List ℕ) (cost_map : Option CostMap) (p : List Pos) (c : Option ℕ)
    (h : a_star gm start endP restricted cost_map = some (some p, c)) :
    p.head? = some start ∧ p.getLast? = some endP ∧
      ∀ q ∈ p.tail, inBounds q ∧ gm q ∉ restricted :=
  a_star_path_shape gm start endP restricted cost_map p c h

theorem C2_witness :
    ([((1 : ℤ), (1 : ℤ)), ((2 : ℤ), (1 : ℤ))].head? = some ((1 : ℤ), (1 : ℤ)) ∧
      [((1 : ℤ), (1 : ℤ)), ((2 : ℤ), (1 : ℤ))].getLast? = some ((2 : ℤ), (1 : ℤ)) ∧
      ∀ q ∈ [((1 : ℤ), (1 : ℤ)), ((2 : ℤ), (1 : ℤ))].tail,
        inBounds q ∧ emptyGM q ∉ [1, 4]) :=
  C2_path_avoids_forbidden emptyGM (1, 1) (2, 1) [1, 4] none
    [(1, 1), (2, 1)] (some 1) (by decide)

/-- Claim C3: when the goal is not reachable from the start through in-bounds,
non-forbidden cells, the search terminates normally with the `(None, inf)`
failure result — the empty path and the infinite cost. -/
theorem C3_no_path (gm : GameMap) (start endP : Pos) (restricted : List ℕ)
    (cost_map : Option CostMap)
    (h : ¬ ReachableR gm restricted start endP) :
    a_star gm start endP restricted cost_map = some (none, none) := by
  rcases hres : a_star gm start endP restricted cost_map with _ | ⟨op, oc⟩
  · exact absurd hres (a_star_total gm start endP restricted cost_map)
  · rcases op with _ | p
    · have hinv : ∀ e ∈ (initState start).nodes, ChainOk gm restricted start e.2 := by
        intro e he
        rcases List.mem_singleton.1 he with rfl
        exact rfl
      rcases a_starAux_sound gm restricted _ endP start FUEL (initState start)
          (none, oc) hinv hres with ⟨_, h2⟩ | ⟨n, _, _, h1⟩
      · simp only at h2
        rw [h2]
      · exact absurd h1 (by simp)
    · have hshape := a_star_path_shape gm start endP restricted cost_map p oc hres
      exfalso
      have hinv : ∀ e ∈ (initState start).nodes, ChainOk gm restricted start e.2 := by
        intro e he
        rcases List.mem_singleton.1 he with rfl
        exact rfl
      rcases a_starAux_sound gm restricted _ endP start FUEL (initState start)
          (some p, oc) hinv hres with ⟨h1, _⟩ | ⟨n, hok, hpos, _⟩
      · exact absurd h1 (by simp)
      · exact h (hpos ▸ hok.reachable)

theorem C3_witness :
    a_star goalBlockedGM (1, 1) (5, 5) [1] none = some (none, none) :=
  C3_no_path goalBlockedGM (1, 1) (5, 5) [1] none (by
    intro h
    rcases reachable_dest h with h1 | h1
    · exact absurd h1 (by decide)
    · exact h1.2 (by simp [goalBlockedGM]))

theorem ChainOk.steps_lower {gm restricted start} {n : NodeC}
    (h : ChainOk gm restricted start n) :
    manhattan start n.position ≤ n.steps := by
  induction n with
  | root p =>
    have hps : p = start := h
    subst hps
    simp [NodeC.position, NodeC.steps, manhattan_self]
  | child p par ih =>
    have h1 := ih h.2.2.2
    have h2 : manhattan start p ≤ manhattan start par.position + manhattan par.position p :=
      manhattan_triangle start par.position p
    have h3 : manhattan par.position p = 1 := manhattan_comm par.position p ▸ h.2.2.1
    simp only [NodeC.position, NodeC.steps] at *
    omega

theorem stepToward_spec {s t : Pos} (h : t ≠ s) :
    manhattan s (stepToward s t) + 1 = manhattan s t ∧
    manhattan t (stepToward s t) = 1 ∧
    (inBounds s → inBounds t → inBounds (stepToward s t)) := by
  obtain ⟨sx, sy⟩ := s
  obtain ⟨tx, ty⟩ := t
  have hne : tx ≠ sx ∨ ty ≠ sy := by
    by_contra hcon
    push_neg at hcon
    exact h (by simp [hcon.1, hcon.2])
  unfold stepToward manhattan inBounds GRID_WIDTH_CELLS GRID_HEIGHT_CELLS
  split_ifs <;>
    refine ⟨by dsimp only; omega, by dsimp only; omega, fun hs ht => ?_⟩ <;>
    dsimp only at hs ht ⊢ <;> omega

/-- Frontier lemma: while a non-closed in-bounds cell `t` exists, the heap
holds an entry whose key is at most `dist(start,t) + h(t)`; in particular the
heap is non-empty. -/
theorem front_entry (restricted : List ℕ) (start endP : Pos) (s : AState)
    (hinv : OptInv restricted start endP s) (hbs : inBounds start) :
    ∀ (k : ℕ) (t : Pos), manhattan start t = k → inBounds t → t ∉ s.closed →
      ∃ e ∈ s.nodes, e.1 ≤ manhattan start t + manhattan t endP := by
  intro k
  induction k using Nat.strong_induction_on with
  | _ k ih =>
    intro t hk hbt hnc
    by_cases hts : t = start
    · subst hts
      obtain ⟨e, he, hepos, hekey⟩ := hinv.1.canon t hnc 0 hinv.1.gstart
      refine ⟨e, he, ?_⟩
      rw [hekey, manhattan_self]
    · obtain ⟨hm1, hm2, hbnd⟩ := stepToward_spec hts
      set t2 := stepToward start t with ht2
      by_cases hc : t2 ∈ s.closed
      · obtain ⟨w, hw, hwle⟩ := hinv.2 t2 hc t hbt hm2
        have hlow := hinv.1.glower t w hw
        have hweq : w = manhattan start t := by omega
        obtain ⟨e, he, hepos, hekey⟩ := hinv.1.canon t hnc w hw
        exact ⟨e, he, by rw [hekey, hweq]⟩
      · have hlt : manhattan start t2 < k := by omega
        obtain ⟨e, he, hkey⟩ := ih (manhattan start t2) hlt t2 rfl (hbnd hbs hbt) hc
        have htr : manhattan t2 endP ≤ manhattan t2 t + manhattan t endP :=
          manhattan_triangle t2 t endP
        have ht2t : manhattan t2 t = 1 := manhattan_comm t2 t ▸ hm2
        exact ⟨e, he, by omega⟩

theorem updFun_same (f : Pos → Option ℕ) (p : Pos) (v : Option ℕ) :
    updFun f p v p = v := by
  simp [updFun]

theorem updFun_other (f : Pos → Option ℕ) (p : Pos) (v : Option ℕ) {q : Pos}
    (h : q ≠ p) : updFun f p v q = f q := by
  simp [updFun, h]

theorem ltOpt_some_some {a w : ℕ} (h : ltOpt (some a) (some w) = true) : a < w := by
  simpa [ltOpt] using h

theorem ltOpt_some_cases {a : ℕ} {b : Option ℕ} (h : ltOpt (some a) b = true) :
    b = none ∨ ∃ w, b = some w ∧ a < w := by
  cases b with
  | none => exact Or.inl rfl
  | some w => exact Or.inr ⟨w, rfl, ltOpt_some_some h⟩

/-- One relaxation step of the expansion of the freshly closed cell `cpos`
preserves the mid-expansion invariant, keeps the closed set and the cost of
`cpos`, and can only lower tentative costs. -/
theorem relaxMove_mid (restricted : List ℕ) (start endP cpos : Pos) (v : ℕ)
    (cnode : NodeC) (mv : Pos) (st : AState)
    (hmv : mv ∈ cardinal_moves) (hf : (0 : ℕ) ∉ restricted)
    (hcp : cnode.position = cpos) (hcc : ChainOk emptyGM restricted start cnode)
    (hsteps : cnode.steps = v) (hvM : v = manhattan start cpos)
    (hclp : cpos ∈ st.closed) (hgcp : st.g_costs cpos = some v)
    (hmid : MidInv restricted start endP cpos st) :
    MidInv restricted start endP cpos
        (relaxMove emptyGM restricted unitCM endP cpos cnode st mv) ∧
      (relaxMove emptyGM restricted unitCM endP cpos cnode st mv).closed = st.closed ∧
      (relaxMove emptyGM restricted unitCM endP cpos cnode st mv).g_costs cpos = some v ∧
      (∀ q w B, st.g_costs q = some w → w ≤ B →
        ∃ w2, (relaxMove emptyGM restricted unitCM endP cpos cnode st mv).g_costs q =
          some w2 ∧ w2 ≤ B) := by
  have hadj : manhattan (cpos.1 + mv.1, cpos.2 + mv.2) cpos = 1 :=
    (adjacent_iff cpos _).1 ⟨mv, hmv, rfl⟩
  unfold relaxMove
  dsimp only
  split
  · exact ⟨hmid, rfl, hgcp, fun q w B hq hB => ⟨w, hq, hB⟩⟩
  · rename_i hguard
    push_neg at hguard
    obtain ⟨hbq, hrq, hncq⟩ := hguard
    rw [hgcp]
    simp only [Option.map_some', unitCM]
    split
    · rename_i hlt
      set pos : Pos := (cpos.1 + mv.1, cpos.2 + mv.2) with hposdef
      have hpc : pos ≠ cpos := by
        intro hpeq
        rw [hpeq, manhattan_self] at hadj
        exact absurd hadj one_ne_zero.symm
      have hps : pos ≠ start := by
        intro hpeq
        rw [hpeq, hmid.1.gstart] at hlt
        exact absurd (ltOpt_some_some hlt) (by omega)
      have hMlow : manhattan start pos ≤ v + 1 := by
        have h1 := manhattan_triangle start cpos pos
        have h2 : manhattan cpos pos = 1 := manhattan_comm cpos pos ▸ hadj
        omega
      show MidInv restricted start endP cpos
          ⟨heappush st.nodes (v + 1 + manhattan pos endP, NodeC.child pos cnode),
            st.closed, updFun st.g_costs pos (some (v + 1))⟩ ∧
          st.closed = st.closed ∧
          updFun st.g_costs pos (some (v + 1)) cpos = some v ∧
          (∀ q w B, st.g_costs q = some w → w ≤ B →
            ∃ w2, updFun st.g_costs pos (some (v + 1)) q = some w2 ∧ w2 ≤ B)
      refine ⟨⟨?base, ?relax⟩, rfl, ?gpos2, ?dcr⟩
      case gpos2 =>
        rw [updFun_other _ _ _ hpc.symm]
        exact hgcp
      case base =>
        refine ⟨hmid.1.end_not_closed, ?_, ?_, ?_, ?_, ?_, ?_, ?_, ?_⟩
        · dsimp only
          intro e he
          rcases mem_heappush.1 he with rfl | he
          · exact ⟨hbq, hrq, by rw [hcp]; exact hadj, hcc⟩
          · exact hmid.1.chains e he
        · dsimp only
          intro e he
          rcases mem_heappush.1 he with rfl | he
          · simp only [NodeC.steps, NodeC.position, hsteps]
          · exact hmid.1.fkey e he
        · dsimp only
          intro e he
          rcases mem_heappush.1 he with rfl | he
          · exact ⟨v + 1, updFun_same _ _ _, by simp [NodeC.steps, hsteps]⟩
          · obtain ⟨w, hw, hwle⟩ := hmid.1.gdef e he
            by_cases hep : e.2.position = pos
            · rw [hep] at hw ⊢
              rw [hw] at hlt
              have hwlt := ltOpt_some_some hlt
              exact ⟨v + 1, updFun_same _ _ _, by omega⟩
            · rw [updFun_other _ _ _ hep]
              exact ⟨w, hw, hwle⟩
        · dsimp only
          intro p hpncl w hw
          by_cases hpp : p = pos
          · subst hpp
            rw [updFun_same] at hw
            refine ⟨(v + 1 + manhattan pos endP, NodeC.child pos cnode),
              mem_heappush.2 (Or.inl rfl), rfl, ?_⟩
            simp only [Option.some_inj] at hw
            omega
          · rw [updFun_other _ _ _ hpp] at hw
            obtain ⟨e, he, hepos, hekey⟩ := hmid.1.canon p hpncl w hw
            exact ⟨e, mem_heappush.2 (Or.inr he), hepos, hekey⟩
        · dsimp only
          intro p w hw
          by_cases hpp : p = pos
          · subst hpp
            rw [updFun_same] at hw
            simp only [Option.some_inj] at hw
            omega
          · rw [updFun_other _ _ _ hpp] at hw
            exact hmid.1.glower p w hw
        · dsimp only
          intro p hpcl
          have hpp : p ≠ pos := fun h => hncq (h ▸ hpcl)
          rw [updFun_other _ _ _ hpp]
          exact hmid.1.gclosed p hpcl
        · dsimp only
          rw [updFun_other _ _ _ hps.symm]
          exact hmid.1.gstart
        · exact heappush_sorted hmid.1.sorted
      case relax =>
        dsimp only [relaxProp]
        intro p hpcl hpne q hqb hqadj
        obtain ⟨w, hw, hwle⟩ := hmid.2 p hpcl hpne q hqb hqadj
        by_cases hqp : q = pos
        · subst hqp
          rw [hw] at hlt
          have hwlt := ltOpt_some_some hlt
          exact ⟨v + 1, updFun_same _ _ _, by omega⟩
        · rw [updFun_other _ _ _ hqp]
          exact ⟨w, hw, hwle⟩
      case dcr =>
        intro q w B hq hB
        by_cases hqp : q = pos
        · subst hqp
          rw [hq] at hlt
          have hwlt := ltOpt_some_some hlt
          exact ⟨v + 1, updFun_same _ _ _, by omega⟩
        · rw [updFun_other _ _ _ hqp]
          exact ⟨w, hq, hB⟩
    · exact ⟨hmid, rfl, hgcp, fun q w B hq hB => ⟨w, hq, hB⟩⟩

/-- After the neighbour-loop iteration for `mv`, the target cell holds a
finite tentative cost at most `v + 1` (provided it was eligible). -/
theorem relaxMove_target (restricted : List ℕ) (endP cpos : Pos) (v : ℕ)
    (cnode : NodeC) (mv : Pos) (st : AState) (hf : (0 : ℕ) ∉ restricted)
    (hb : inBounds (cpos.1 + mv.1, cpos.2 + mv.2))
    (hnc : (cpos.1 + mv.1, cpos.2 + mv.2) ∉ st.closed)
    (hgcp : st.g_costs cpos = some v) :
    ∃ w2, (relaxMove emptyGM restricted unitCM endP cpos cnode st mv).g_costs
        (cpos.1 + mv.1, cpos.2 + mv.2) = some w2 ∧ w2 ≤ v + 1 := by
  unfold relaxMove
  dsimp only
  split
  · rename_i hguard
    exact absurd hguard (by
      push_neg
      exact ⟨hb, by simpa [emptyGM] using hf, hnc⟩)
  · rw [hgcp]
    simp only [Option.map_some', unitCM]
    split
    · exact ⟨v + 1, updFun_same _ _ _, by omega⟩
    · rename_i hlt
      simp only [Bool.not_eq_true] at hlt
      rcases hgq : st.g_costs (cpos.1 + mv.1, cpos.2 + mv.2) with _ | w
      · rw [hgq] at hlt
        exact absurd hlt (by simp [ltOpt])
      · rw [hgq] at hlt
        have hle : w ≤ v + 1 := by
          by_contra hcon
          rw [show ltOpt (some (v + 1)) (some w) = true by simp [ltOpt]; omega] at hlt
          exact absurd hlt (by simp)
        exact ⟨w, rfl, hle⟩

/-- The whole neighbour loop preserves the mid-expansion invariant, keeps the
closed set and the cost of `cpos`, only lowers costs, and leaves every
eligible neighbour of `cpos` with a cost at most `v + 1`. -/
theorem foldl_relax_mid (restricted : List ℕ) (start endP cpos : Pos) (v : ℕ)
    (cnode : NodeC) (hf : (0 : ℕ) ∉ restricted)
    (hcp : cnode.position = cpos) (hcc : ChainOk emptyGM restricted start cnode)
    (hsteps : cnode.steps = v) (hvM : v = manhattan start cpos) :
    ∀ (ms : List Pos), (∀ m ∈ ms, m ∈ cardinal_moves) →
    ∀ st : AState, cpos ∈ st.closed → st.g_costs cpos = some v →
      MidInv restricted start endP cpos st →
      MidInv restricted start endP cpos
          (ms.foldl (relaxMove emptyGM restricted unitCM endP cpos cnode) st) ∧
        (ms.foldl (relaxMove emptyGM restricted unitCM endP cpos cnode) st).closed =
          st.closed ∧
        (ms.foldl (relaxMove emptyGM restricted unitCM endP cpos cnode) st).g_costs
          cpos = some v ∧
        (∀ q w B, st.g_costs q = some w → w ≤ B →
          ∃ w2, (ms.foldl (relaxMove emptyGM restricted unitCM endP cpos cnode)
            st).g_costs q = some w2 ∧ w2 ≤ B) ∧
        (∀ mv ∈ ms, inBounds (cpos.1 + mv.1, cpos.2 + mv.2) →
          (cpos.1 + mv.1, cpos.2 + mv.2) ∉ st.closed →
          ∃ w2, (ms.foldl (relaxMove emptyGM restricted unitCM endP cpos cnode)
            st).g_costs (cpos.1 + mv.1, cpos.2 + mv.2) = some w2 ∧ w2 ≤ v + 1) := by
  intro ms
  induction ms with
  | nil =>
    intro _ st hclp hgcp hmid
    exact ⟨hmid, rfl, hgcp, fun q w B hq hB => ⟨w, hq, hB⟩, by simp⟩
  | cons m rest ih =>
    intro hmem st hclp hgcp hmid
    have hm : m ∈ cardinal_moves := hmem m (List.mem_cons_self m rest)
    obtain ⟨hmid1, hcl1, hgcp1, hdec1⟩ :=
      relaxMove_mid restricted start endP cpos v cnode m st hm hf hcp hcc hsteps hvM
        hclp hgcp hmid
    have hclp1 : cpos ∈ (relaxMove emptyGM restricted unitCM endP cpos cnode st m).closed :=
      hcl1 ▸ hclp
    obtain ⟨hmidF, hclF, hgcpF, hdecF, htgtF⟩ :=
      ih (fun m2 hm2 => hmem m2 (List.mem_cons_of_mem m hm2)) _ hclp1 hgcp1 hmid1
    refine ⟨hmidF, by rw [List.foldl_cons, hclF, hcl1], by rw [List.foldl_cons]; exact hgcpF,
      ?_, ?_⟩
    · intro q w B hq hB
      obtain ⟨w2, hq2, hB2⟩ := hdec1 q w B hq hB
      rw [List.foldl_cons]
      exact hdecF q w2 B hq2 hB2
    · intro mv hmv hbmv hncmv
      rw [List.foldl_cons]
      rcases List.mem_cons.1 hmv with rfl | hmv
      · obtain ⟨w2, hgq, hle⟩ :=
          relaxMove_target restricted endP cpos v cnode mv st hf hbmv hncmv hgcp
        exact hdecF _ w2 (v + 1) hgq hle
      · exact htgtF mv hmv hbmv (by rw [hcl1]; exact hncmv)

theorem ChainOk.pos_cases {gm restricted start} {n : NodeC}
    (h : ChainOk gm restricted start n) :
    n.position = start ∨ inBounds n.position := by
  cases n with
  | root p => exact Or.inl h
  | child p par => exact Or.inr h.1

/-- Expanding the freshly closed cell `cpos` upgrades the mid-expansion
invariant back to the full invariant. -/
theorem expand_opt (restricted : List ℕ) (start endP cpos : Pos) (v : ℕ)
    (cnode : NodeC) (hf : (0 : ℕ) ∉ restricted)
    (hcp : cnode.position = cpos) (hcc : ChainOk emptyGM restricted start cnode)
    (hsteps : cnode.steps = v) (hvM : v = manhattan start cpos)
    (st0 : AState) (hclp : cpos ∈ st0.closed) (hgcp : st0.g_costs cpos = some v)
    (hmid : MidInv restricted start endP cpos st0) :
    OptInv restricted start endP
        (expandNode emptyGM restricted unitCM endP cpos cnode st0) ∧
      (expandNode emptyGM restricted unitCM endP cpos cnode st0).closed = st0.closed ∧
      (expandNode emptyGM restricted unitCM endP cpos cnode st0).nodes.length ≤
        st0.nodes.length + 4 := by
  obtain ⟨hmidF, hclF, hgcpF, hdecF, htgtF⟩ :=
    foldl_relax_mid restricted start endP cpos v cnode hf hcp hcc hsteps hvM
      cardinal_moves (fun m hm => hm) st0 hclp hgcp hmid
  have hlen := foldl_relax_length emptyGM restricted unitCM endP cpos cnode
    cardinal_moves st0
  refine ⟨⟨hmidF.1, ?_⟩, hclF, by simpa [cardinal_moves] using hlen⟩
  intro p hp
  by_cases hpc : p = cpos
  · subst hpc
    intro q hqb hqadj
    obtain ⟨mv, hmv, hqeq⟩ := (adjacent_iff p q).2 hqadj
    by_cases hqcl : q ∈ st0.closed
    · have hqne : q ≠ p := by
        intro h
        rw [h, manhattan_self] at hqadj
        exact absurd hqadj one_ne_zero.symm
      have hgq := hmidF.1.gclosed q (hclF ▸ hqcl)
      refine ⟨manhattan start q, hgq, ?_⟩
      have h1 := manhattan_triangle start p q
      have h2 : manhattan p q = 1 := manhattan_comm p q ▸ hqadj
      omega
    · obtain ⟨w2, hw2, hle⟩ := htgtF mv hmv (hqeq ▸ hqb) (hqeq ▸ hqcl)
      exact ⟨w2, hqeq ▸ hw2, by omega⟩
  · exact hmidF.2 p hp hpc

/-- Main loop invariant theorem: from any state satisfying the optimality
invariant, the search returns a path of optimal length and cost. -/
theorem opt_loop (restricted : List ℕ) (start endP : Pos) (hf : (0 : ℕ) ∉ restricted)
    (hbs : inBounds start) (hbe : inBounds endP) :
    ∀ (fuel : ℕ) (s : AState), OptInv restricted start endP s →
      measureA start s < fuel →
      ∃ p, a_starAux emptyGM restricted unitCM endP fuel s =
        some (some p, some (manhattan start endP)) ∧
        p.length = manhattan start endP + 1 := by
  intro fuel
  induction fuel with
  | zero => intro s _ hm; exact absurd hm (by omega)
  | succ fuel ih =>
    intro s hinv hm
    rw [a_starAux]
    rcases hs : s.nodes with _ | ⟨e, rest⟩
    · exfalso
      obtain ⟨e, he, _⟩ := front_entry restricted start endP s hinv hbs
        (manhattan start endP) endP rfl hbe hinv.1.end_not_closed
      rw [hs] at he
      exact absurd he (List.not_mem_nil e)
    · dsimp only
      have hmem_e : e ∈ s.nodes := hs ▸ List.mem_cons_self e rest
      split
      · rename_i hend
        obtain ⟨ve, hgc, hvle⟩ := hinv.1.gdef e hmem_e
        have hkey := hinv.1.fkey e hmem_e
        obtain ⟨e2, he2, hb2⟩ := front_entry restricted start endP s hinv hbs
          (manhattan start endP) endP rfl hbe hinv.1.end_not_closed
        have hhead : e.1 ≤ e2.1 :=
          sorted_head_le (hs ▸ hinv.1.sorted) e2 (hs ▸ he2)
        have hlow := (hinv.1.chains e hmem_e).steps_lower
        have hglow := hinv.1.glower e.2.position ve hgc
        rw [hend] at hgc hglow hlow hkey
        rw [manhattan_self] at hkey hb2
        have hveM : ve = manhattan start endP := by omega
        have hstepsM : e.2.steps = manhattan start endP := by omega
        refine ⟨e.2.chain.reverse, ?_, ?_⟩
        · rw [hgc, hveM]
        · rw [List.length_reverse, e.2.chain_length, hstepsM]
      · split
        · rename_i hend hcl
          refine ih { s with nodes := rest } ⟨⟨hinv.1.end_not_closed, ?_, ?_, ?_, ?_,
              hinv.1.glower, hinv.1.gclosed, hinv.1.gstart, ?_⟩, ?_⟩ ?_
          · exact fun a ha => hinv.1.chains a (hs ▸ List.mem_cons_of_mem e ha)
          · exact fun a ha => hinv.1.fkey a (hs ▸ List.mem_cons_of_mem e ha)
          · exact fun a ha => hinv.1.gdef a (hs ▸ List.mem_cons_of_mem e ha)
          · intro p hpncl w hw
            obtain ⟨e3, he3, hepos, hekey⟩ := hinv.1.canon p hpncl w hw
            rw [hs] at he3
            rcases List.mem_cons.1 he3 with rfl | he3
            · exact absurd (hepos ▸ hcl) hpncl
            · exact ⟨e3, he3, hepos, hekey⟩
          · exact List.Pairwise.of_cons (hs ▸ hinv.1.sorted)
          · exact fun p hp => hinv.2 p hp
          · unfold measureA at hm ⊢
            dsimp only
            rw [hs] at hm
            simp only [List.length_cons] at hm
            omega
        · rename_i hend hcl
          obtain ⟨v0, hgc, hvle⟩ := hinv.1.gdef e hmem_e
          obtain ⟨ec, hec, hecpos, heckey⟩ := hinv.1.canon e.2.position hcl v0 hgc
          have hhead : e.1 ≤ ec.1 := sorted_head_le (hs ▸ hinv.1.sorted) ec (hs ▸ hec)
          have hkey := hinv.1.fkey e hmem_e
          have hsteps0 : e.2.steps = v0 := by
            rw [heckey] at hhead
            rw [hkey] at hhead
            omega
          have hv0M : v0 = manhattan start e.2.position := by
            rcases (hinv.1.chains e hmem_e).pos_cases with hstart | hbp
            · rw [hstart] at hgc
              rw [hinv.1.gstart] at hgc
              simp only [Option.some_inj] at hgc
              rw [hstart, manhattan_self]
              omega
            · obtain ⟨e3, he3, hb3⟩ := front_entry restricted start endP s hinv hbs
                (manhattan start e.2.position) e.2.position rfl hbp hcl
              have hh3 : e.1 ≤ e3.1 := sorted_head_le (hs ▸ hinv.1.sorted) e3 (hs ▸ he3)
              have hglow := hinv.1.glower e.2.position v0 hgc
              rw [hkey, hsteps0] at hh3
              omega
          set st0 : AState :=
            { nodes := rest, closed := e.2.position :: s.closed, g_costs := s.g_costs }
            with hst0
          have hmid0 : MidInv restricted start endP e.2.position st0 := by
            refine ⟨⟨?_, ?_, ?_, ?_, ?_, hinv.1.glower, ?_, hinv.1.gstart, ?_⟩, ?_⟩
            · simp only [hst0, List.mem_cons]
              push_neg
              exact ⟨fun h => hend h.symm, hinv.1.end_not_closed⟩
            · exact fun a ha => hinv.1.chains a (hs ▸ List.mem_cons_of_mem e ha)
            · exact fun a ha => hinv.1.fkey a (hs ▸ List.mem_cons_of_mem e ha)
            · exact fun a ha => hinv.1.gdef a (hs ▸ List.mem_cons_of_mem e ha)
            · intro p hpncl w hw
              simp only [hst0, List.mem_cons] at hpncl
              push_neg at hpncl
              obtain ⟨e3, he3, hepos, hekey⟩ := hinv.1.canon p hpncl.2 w hw
              rw [hs] at he3
              rcases List.mem_cons.1 he3 with rfl | he3
              · exact absurd hepos.symm hpncl.1
              · exact ⟨e3, he3, hepos, hekey⟩
            · intro p hp
              simp only [hst0, List.mem_cons] at hp
              rcases hp with rfl | hp
              · rw [← hv0M]
                exact hgc
              · exact hinv.1.gclosed p hp
            · exact List.Pairwise.of_cons (hs ▸ hinv.1.sorted)
            · intro p hp hpne
              simp only [hst0, List.mem_cons] at hp
              rcases hp with rfl | hp
              · exact absurd rfl hpne
              · exact hinv.2 p hp
          obtain ⟨hopt1, hcl1, hlen1⟩ :=
            expand_opt restricted start endP e.2.position v0 e.2 hf rfl
              (hinv.1.chains e hmem_e) hsteps0 hv0M st0
              (List.mem_cons_self _ _) hgc hmid0
          refine ih _ hopt1 ?_
          unfold measureA at hm ⊢
          rw [hcl1]
          have hpmem : e.2.position ∈ posSet start \ s.closed.toFinset := by
            refine Finset.mem_sdiff.2 ⟨?_, by simpa [List.mem_toFinset] using hcl⟩
            rcases (hinv.1.chains e hmem_e).pos_cases with hstart | hbp
            · rw [hstart]; exact Finset.mem_insert_self start gridFinset
            · exact Finset.mem_insert_of_mem (mem_gridFinset.2 hbp)
          have hcard : (posSet start \ (e.2.position :: s.closed).toFinset).card =
              (posSet start \ s.closed.toFinset).card - 1 := by
            rw [List.toFinset_cons, Finset.sdiff_insert,
              Finset.card_erase_of_mem hpmem]
          have hcardpos : 0 < (posSet start \ s.closed.toFinset).card :=
            Finset.card_pos.2 ⟨e.2.position, hpmem⟩
          rw [hs] at hm
          simp only [List.length_cons] at hm
          rw [hcard]
          have hst0len : st0.nodes.length = rest.length := rfl
          omega

/-- `start == end` returns `([start], 0)` immediately, whatever the grid:
the initial node is popped and matched against `end` before any checks. -/
theorem a_star_self (gm : GameMap) (p : Pos) (restricted : List ℕ)
    (cost_map : Option CostMap) :
    a_star gm p p restricted cost_map = some (some [p], some 0) := by
  unfold a_star
  show a_starAux gm restricted _ p (2499 + 1) (initState p) = _
  rw [a_starAux]
  dsimp only [initState, NodeC.position]
  rw [if_pos rfl]
  simp [NodeC.chain, updFun_same]

/-- On the obstacle-free grid every in-bounds cell is reachable from any
start cell, tile kind 0 not being forbidden. -/
theorem reachable_empty (restricted : List ℕ) (hf : (0 : ℕ) ∉ restricted)
    (start : Pos) (hbs : inBounds start) :
    ∀ (k : ℕ) (t : Pos), manhattan start t = k → inBounds t →
      ReachableR emptyGM restricted start t := by
  intro k
  induction k using Nat.strong_induction_on with
  | _ k ih =>
    intro t hk hbt
    by_cases hts : t = start
    · subst hts
      exact ReachableR.refl
    · obtain ⟨hm1, hm2, hbnd⟩ := stepToward_spec hts
      have hr2 : ReachableR emptyGM restricted start (stepToward start t) :=
        ih (manhattan start (stepToward start t)) (by omega) _ rfl (hbnd hbs hbt)
      exact ReachableR.step hr2 hm2 hbt hf

/-- On the obstacle-free grid with the default uniform cost map, a search
between in-bounds cells returns a path of `manhattan + 1` positions with cost
`manhattan`, provided tile kind 0 is not forbidden. -/
theorem a_star_empty_manhattan (restricted : List ℕ) (start endP : Pos)
    (hf : (0 : ℕ) ∉ restricted) (hbs : inBounds start) (hbe : inBounds endP) :
    ∃ p, a_star emptyGM start endP restricted none =
      some (some p, some (manhattan start endP)) ∧
      p.length = manhattan start endP + 1 := by
  by_cases hse : start = endP
  · subst hse
    refine ⟨[start], ?_, by simp [manhattan_self]⟩
    rw [a_star_self, manhattan_self]
  · set st0 : AState :=
      { nodes := [], closed := [start],
        g_costs := updFun (fun _ => none) start (some 0) } with hst0
    have hmid0 : MidInv restricted start endP start st0 := by
      refine ⟨⟨?_, ?_, ?_, ?_, ?_, ?_, ?_, ?_, ?_⟩, ?_⟩
      · simp only [hst0, List.mem_singleton]
        exact fun h => hse h.symm
      · intro e he; exact absurd he (List.not_mem_nil e)
      · intro e he; exact absurd he (List.not_mem_nil e)
      · intro e he; exact absurd he (List.not_mem_nil e)
      · intro p hpncl w hw
        simp only [hst0, List.mem_singleton] at hpncl
        have hw2 : updFun (fun _ => none) start (some 0) p = some w := hw
        rw [updFun_other _ _ _ hpncl] at hw2
        exact absurd hw2 (by simp)
      · intro p w hw
        have hw2 : updFun (fun _ => none) start (some 0) p = some w := hw
        by_cases hps : p = start
        · subst hps
          rw [updFun_same] at hw2
          simp only [Option.some_inj] at hw2
          rw [manhattan_self]
          omega
        · rw [updFun_other _ _ _ hps] at hw2
          exact absurd hw2 (by simp)
      · intro p2 hp2
        simp only [hst0, List.mem_singleton] at hp2
        rw [hp2]
        show updFun (fun _ => none) start (some 0) start = some (manhattan start start)
        rw [updFun_same, manhattan_self]
      · show updFun (fun _ => none) start (some 0) start = some 0
        exact updFun_same _ _ _
      · exact List.Pairwise.nil
      · intro p hp hpne
        simp only [hst0, List.mem_singleton] at hp
        exact absurd hp hpne
    obtain ⟨hopt1, hcl1, hlen1⟩ :=
      expand_opt restricted start endP start 0 (NodeC.root start) hf rfl rfl rfl
        (manhattan_self start).symm st0 (List.mem_singleton.2 rfl)
        (show st0.g_costs start = some 0 from updFun_same (fun _ => none) start (some 0))
        hmid0
    have hmeas : measureA start
        (expandNode emptyGM restricted unitCM endP start (NodeC.root start) st0) <
        2499 := by
      unfold measureA
      rw [hcl1]
      have hc2 : st0.closed = [start] := rfl
      rw [hc2]
      have hsub : posSet start \ [start].toFinset ⊆ gridFinset := by
        intro x hx
        rcases Finset.mem_sdiff.1 hx with ⟨hx1, hx2⟩
        simp only [List.toFinset_cons, List.toFinset_nil, insert_emptyc_eq,
          Finset.mem_singleton] at hx2
        rcases Finset.mem_insert.1 hx1 with rfl | hx1
        · exact absurd rfl hx2
        · exact hx1
      have hcard : (posSet start \ [start].toFinset).card ≤ 500 :=
        gridFinset_card ▸ Finset.card_le_card hsub
      have hl0 : st0.nodes.length = 0 := rfl
      omega
    obtain ⟨p, heq, hlen⟩ := opt_loop restricted start endP hf hbs hbe 2499 _ hopt1 hmeas
    refine ⟨p, ?_, hlen⟩
    unfold a_star
    show a_starAux emptyGM restricted unitCM endP (2499 + 1) (initState start) = _
    rw [a_starAux]
    dsimp only [initState, NodeC.position]
    rw [if_neg hse, if_neg (List.not_mem_nil start)]
    exact heq

/-- Claim C1: for every pair of in-bounds cells that are mutually reachable
through non-forbidden cells on the obstacle-free grid, `a_star` with the
default uniform cost map returns a path of `manhattan + 1` positions whose
cost is the Manhattan distance. -/
theorem C1_empty_grid_manhattan (start endP : Pos) (restricted : List ℕ)
    (hbs : inBounds start) (hbe : inBounds endP)
    (hr : ReachableR emptyGM restricted start endP) :
    ∃ p, a_star emptyGM start endP restricted none =
      some (some p, some (manhattan start endP)) ∧
      p.length = manhattan start endP + 1 := by
  by_cases hse : start = endP
  · subst hse
    refine ⟨[start], ?_, by simp [manhattan_self]⟩
    rw [a_star_self, manhattan_self]
  · have hf : (0 : ℕ) ∉ restricted := by
      cases hr with
      | refl => exact absurd rfl hse
      | step hp hadj hb hfr => simpa [emptyGM] using hfr
    exact a_star_empty_manhattan restricted start endP hf hbs hbe

theorem C1_witness :
    inBounds ((1 : ℤ), (1 : ℤ)) ∧ inBounds ((5 : ℤ), (5 : ℤ)) ∧
    manhattan (1, 1) (5, 5) = 8 ∧
    ∃ p, a_star emptyGM (1, 1) (5, 5) [1, 4] none = some (some p, some 8) ∧
      p.length = 9 := by
  refine ⟨by decide, by decide, by decide, ?_⟩
  have h := C1_empty_grid_manhattan (1, 1) (5, 5) [1, 4] (by decide) (by decide)
    (reachable_empty [1, 4] (by decide) (1, 1) (by decide)
      (manhattan (1, 1) (5, 5)) (5, 5) rfl (by decide))
  have hm : manhattan ((1 : ℤ), (1 : ℤ)) ((5 : ℤ), (5 : ℤ)) = 8 := by decide
  rw [hm] at h
  simpa using h

/-- Claim C4: an enemy is a threat exactly when its turns-to-reach is finite
and at most the kind threshold (aggressive: detection radius + 2, plus 1 in
attack mode; patrol: 3).  In particular, on an obstacle-free grid an
aggressive enemy with detection radius 6 at turns-to-reach 3 is a threat, and
the same (patrol-mode) enemy at turns-to-reach 9 is not. -/
theorem C4_threat_classification :
    (∀ (gm : GameMap) (o : Enemy) (pos : Pos),
      isThreat gm o pos = true ↔
        ∃ n, turns_to_reach gm (o.x, o.y) pos = some n ∧
          n ≤ (match o.kind with
            | EnemyKind.aggressive =>
              o.detection_radius + 2 + (if o.mode = "attack" then 1 else 0)
            | EnemyKind.patrol => 3)) ∧
    turns_to_reach emptyGM (4, 1) (1, 1) = some 3 ∧
    isThreat emptyGM ⟨4, 1, EnemyKind.aggressive, 6, "patrol"⟩ (1, 1) = true ∧
    turns_to_reach emptyGM (10, 1) (1, 1) = some 9 ∧
    isThreat emptyGM ⟨10, 1, EnemyKind.aggressive, 6, "patrol"⟩ (1, 1) = false := by
  refine ⟨?_, by decide, by decide, by decide, by decide⟩
  intro gm o pos
  unfold isThreat leOptNat
  rcases h : turns_to_reach gm (o.x, o.y) pos with _ | n
  · simp only [Bool.false_eq_true, false_iff]
    rintro ⟨n, hn, _⟩
    exact absurd hn (by simp)
  · have hmax : max_turns o =
        (match o.kind with
          | EnemyKind.aggressive =>
            o.detection_radius + 2 + (if o.mode = "attack" then 1 else 0)
          | EnemyKind.patrol => 3) := by
      unfold max_turns
      cases o.kind
      · rfl
      · by_cases hmode : o.mode = "attack" <;> simp [hmode]
    rw [hmax]
    simp only [decide_eq_true_eq]
    constructor
    · intro hle
      exact ⟨n, rfl, hle⟩
    · rintro ⟨m, hm, hle⟩
      simp only [Option.some_inj] at hm
      omega

/-- Claim C5, counterexample: for an attack-mode aggressive enemy at (10,10)
with detection radius 6 (non-escape extended radius 8), the in-bounds cell
(17,17) lies outside the Manhattan influence zone (distance 14 > 8) yet the
code adds the flat 2000 attack penalty there, because the source applies the
attack bonus over the whole bounding square, not the Manhattan diamond. -/
theorem C5_counterexample :
    enemyContribution gC5 false enemyC5 (17, 17) = 2000 ∧
    claimC5_attack false enemyC5 (17, 17) = 0 ∧
    manhattan ((17 : ℤ), (17 : ℤ)) ((10 : ℤ), (10 : ℤ)) = 14 ∧
    create_dynamic_cost_map gC5 false (17, 17) = 2001 ∧
    baseCost gC5 false (17, 17) = 1 := by
  refine ⟨by decide, by decide, by decide, by decide, by decide⟩

/-- Claim C5 (amended): the dynamic cost map is the base cost plus additive
per-enemy contributions; an aggressive enemy's ring penalty follows the
claim's Manhattan rings (8000/3000/1500/800/300, zero beyond the extended
radius E = r+2 or r+4 in escape mode); but the attack-mode flat 2000 is added
on every in-bounds cell of the bounding square (Chebyshev distance ≤ E), not
only the Manhattan zone. -/
theorem C5_enemy_influence :
    (∀ (g : GState) (escape : Bool) (p : Pos),
      create_dynamic_cost_map g escape p =
        baseCost g escape p +
          (g.dynamic_obstacles.map (fun obs => enemyContribution g escape obs p)).sum) ∧
    (∀ r E d : ℕ, 2 ≤ r → r ≤ E →
      ringPenalty r E d =
        if d = 0 then 8000 else if d = 1 then 3000 else if d = 2 then 1500
        else if 3 ≤ d ∧ d ≤ r then 800 else if r < d ∧ d ≤ E then 300 else 0) ∧
    (∀ (g : GState) (escape : Bool) (x y : ℤ) (r : ℕ) (mode : String) (p : Pos),
      enemyContribution g escape ⟨x, y, EnemyKind.aggressive, r, mode⟩ p =
        if (p.1 - x).natAbs ≤ (if escape then r + 4 else r + 2) ∧
            (p.2 - y).natAbs ≤ (if escape then r + 4 else r + 2) ∧ inBounds p then
          ringPenalty r (if escape then r + 4 else r + 2) (manhattan p (x, y)) +
            (if mode = "attack" then 2000 else 0)
        else 0) := by
  refine ⟨fun g escape p => rfl, ?_, fun g escape x y r mode p => rfl⟩
  intro r E d h2 hrE
  unfold ringPenalty
  split_ifs <;> omega

/-- Claim C8, counterexample: in a corridor with the agent at (1,1) and the
attack-mode enemy at (5,1), the code steps the enemy to (4,1), the second
cell of the enemy-to-agent plan; the claim's agent-to-enemy plan would put it
at (2,1), next to the agent.  The search direction in the claim is reversed. -/
theorem C8_counterexample :
    aggressive_next corridorGM enemyC8 (1, 1) = some (4, 1) ∧
    claimC8_next corridorGM enemyC8 (1, 1) = some (2, 1) ∧
    ((4, 1) : Pos) ≠ (2, 1) := by
  refine ⟨by decide, by decide, by decide⟩

/-- Claim C8 (amended): mode is attack exactly when the squared Euclidean
distance to the agent is at most the squared detection radius; in attack mode
the enemy requests a plan from its own position to the agent's position with
{Obstacle, Water} forbidden and, when the path has more than one cell, moves
to the path's second position (index 1); otherwise (no such path, or patrol
mode) it falls back to the patrol random walk (`none` here). -/
theorem C8_pursuit_step :
    (∀ (o : Enemy) (agent : Pos),
      aggressiveMode o agent = "attack" ↔
        (o.x - agent.1) ^ 2 + (o.y - agent.2) ^ 2 ≤ (o.detection_radius : ℤ) ^ 2) ∧
    (∀ (gm : GameMap) (o : Enemy) (agent : Pos) (path : List Pos) (c : Option ℕ),
      aggressiveMode o agent = "attack" →
      a_star gm (o.x, o.y) agent [1, 4] none = some (some path, c) →
      path.length > 1 →
      aggressive_next gm o agent = path.get? 1) ∧
    (∀ (gm : GameMap) (o : Enemy) (agent : Pos),
      aggressiveMode o agent = "patrol" → aggressive_next gm o agent = none) := by
  refine ⟨?_, ?_, ?_⟩
  · intro o agent
    unfold aggressiveMode
    split
    · rename_i h
      simp only [true_iff]
      exact h
    · rename_i h
      constructor
      · intro hc
        exact absurd hc (by simp)
      · intro hc
        exact absurd hc h
  · intro gm o agent path c hmode hpath hlen
    unfold aggressive_next
    rw [hmode, if_pos rfl, hpath]
    dsimp only
    rw [if_pos hlen]
  · intro gm o agent hmode
    unfold aggressive_next
    rw [hmode]
    simp

theorem C8_witness :
    (aggressiveMode enemyC8 (1, 1) = "attack" ↔
      ((5 : ℤ) - 1) ^ 2 + ((1 : ℤ) - 1) ^ 2 ≤ ((6 : ℕ) : ℤ) ^ 2) ∧
    aggressive_next corridorGM enemyC8 (1, 1) =
      [((5 : ℤ), (1 : ℤ)), (4, 1), (3, 1), (2, 1), (1, 1)].get? 1 :=
  ⟨C8_pursuit_step.1 enemyC8 (1, 1),
    C8_pursuit_step.2.1 corridorGM enemyC8 (1, 1)
      [(5, 1), (4, 1), (3, 1), (2, 1), (1, 1)] (some 4) (by decide) (by decide)
      (by decide)⟩

theorem C5_witness :
    ringPenalty 6 8 5 =
      (if (5 : ℕ) = 0 then 8000 else if (5 : ℕ) = 1 then 3000
        else if (5 : ℕ) = 2 then 1500 else if 3 ≤ (5 : ℕ) ∧ (5 : ℕ) ≤ 6 then 800
        else if 6 < (5 : ℕ) ∧ (5 : ℕ) ≤ 8 then 300 else 0) :=
  C5_enemy_influence.2.1 6 8 5 (by decide) (by decide)

theorem end_mission_flags (ctx : MissionCtx) (st : MState) (result : String)
    (h : flagsAtMostOne st) : flagsAtMostOne (end_mission ctx st result) := by
  unfold end_mission
  rcases hguard : (st.mission_complete || st.mission_failed || st.mission_partial) with _ | _
  · simp only [Bool.or_eq_false_iff] at hguard
    obtain ⟨⟨h1, h2⟩, h3⟩ := hguard
    rw [if_neg (by simp [h1, h2, h3])]
    dsimp only
    split
    · simp [flagsAtMostOne, h1, h2, h3]
    · split
      · simp [flagsAtMostOne, h1, h2, h3]
      · simp [flagsAtMostOne, h1, h2, h3]
  · rw [if_pos (by simp [hguard])]
    exact h

/-- Claim C10: once any termination flag is set, `end_mission` returns with
no state change at all; and along any sequence of calls from the reset state
at most one of the three flags is ever set. -/
theorem C10_termination_flags :
    (∀ (ctx : MissionCtx) (st : MState) (result : String),
      (st.mission_complete = true ∨ st.mission_failed = true ∨
        st.mission_partial = true) →
      end_mission ctx st result = st) ∧
    (∀ evs : List (MissionCtx × String), flagsAtMostOne (runMissions evs)) := by
  constructor
  · intro ctx st result h
    unfold end_mission
    rw [if_pos (by rcases h with h | h | h <;> simp [h])]
  · intro evs
    unfold runMissions
    have hgen : ∀ (l : List (MissionCtx × String)) (st : MState), flagsAtMostOne st →
        flagsAtMostOne (l.foldl (fun st ev => end_mission ev.1 st ev.2) st) := by
      intro l
      induction l with
      | nil => intro st h; exact h
      | cons ev l ih =>
        intro st h
        exact ih _ (end_mission_flags ev.1 st ev.2 h)
    exact hgen evs {} (by decide)

theorem C10_witness :
    end_mission ⟨"ground", 10, 0, 5, 42⟩
        { mission_complete := true } "failed" =
      { mission_complete := true } ∧
    flagsAtMostOne (runMissions
      [(⟨"ground", 10, 0, 5, 42⟩, "failed"), (⟨"ground", 10, 0, 5, 50⟩, "success")]) :=
  ⟨C10_termination_flags.1 ⟨"ground", 10, 0, 5, 42⟩ { mission_complete := true }
      "failed" (Or.inl rfl),
    C10_termination_flags.2 [(⟨"ground", 10, 0, 5, 42⟩, "failed"),
      (⟨"ground", 10, 0, 5, 50⟩, "success")]⟩

/-- Claim C9, counterexample: with 10 collectibles in total and exactly 7
gathered the fraction is exactly 0.7; the code keeps the result "failed"
(strict `> 0.7`), while the claim's "at least 70%" would reclassify it. -/
theorem C9_counterexample :
    reclassify "failed" 10 3 = "failed" ∧
    claimC9_reclassify "failed" 10 3 = "partial" ∧
    10 * ((10 : ℕ) - 3) = 7 * 10 := by
  refine ⟨by decide, by decide, by decide⟩

/-- Claim C9 (amended): a failed mission with a positive collectible total is
reclassified to "partial" exactly when the gathered fraction strictly exceeds
0.7; otherwise it stays "failed". -/
theorem C9_partial_cutoff (total left : ℕ) (hle : left ≤ total) (hpos : 0 < total) :
    (reclassify "failed" total left = "partial" ↔
      ((total - left : ℕ) : ℚ) / (total : ℚ) > 7 / 10) ∧
    (reclassify "failed" total left = "failed" ↔
      ¬ (((total - left : ℕ) : ℚ) / (total : ℚ) > 7 / 10)) := by
  have ht : (0 : ℚ) < (total : ℚ) := by exact_mod_cast hpos
  have key : ((total - left : ℕ) : ℚ) / (total : ℚ) > 7 / 10 ↔
      10 * (total - left) > 7 * total := by
    rw [gt_iff_lt, div_lt_div_iff₀ (by norm_num) ht]
    constructor
    · intro h
      have h2 : (7 * total : ℚ) < ((total - left : ℕ) : ℚ) * 10 := by push_cast at h ⊢; linarith
      have h3 : 7 * total < (total - left) * 10 := by exact_mod_cast h2
      omega
    · intro h
      have h2 : 7 * total < (total - left) * 10 := by omega
      have h3 : (7 * total : ℚ) < ((total - left : ℕ) : ℚ) * 10 := by exact_mod_cast h2
      push_cast at h3 ⊢
      linarith
  constructor
  · rw [key]
    unfold reclassify
    constructor
    · intro h
      by_contra hcon
      rw [if_neg (by simp; omega)] at h
      exact absurd h (by decide)
    · intro h
      rw [if_pos (by refine ⟨rfl, hpos, h⟩)]
  · rw [key]
    unfold reclassify
    constructor
    · intro h
      intro hcon
      rw [if_pos (by refine ⟨rfl, hpos, hcon⟩)] at h
      exact absurd h (by decide)
    · intro h
      rw [if_neg (by simp; omega)]

theorem C9_witness :
    (reclassify "failed" 10 2 = "partial" ↔
      (((10 : ℕ) - 2 : ℕ) : ℚ) / ((10 : ℕ) : ℚ) > 7 / 10) ∧
    (reclassify "failed" 10 2 = "failed" ↔
      ¬ ((((10 : ℕ) - 2 : ℕ) : ℚ) / ((10 : ℕ) : ℚ) > 7 / 10)) :=
  C9_partial_cutoff 10 2 (by decide) (by decide)

theorem mem_insertByDist {agent c a : Pos} {l : List Pos} :
    a ∈ insertByDist agent c l ↔ a = c ∨ a ∈ l := by
  induction l with
  | nil => simp [insertByDist]
  | cons x xs ih =>
    unfold insertByDist
    split
    · simp [List.mem_cons]
    · simp only [List.mem_cons, ih]
      tauto

theorem mem_sorted_by_dist {agent a : Pos} {l : List Pos} :
    a ∈ sorted_by_dist agent l ↔ a ∈ l := by
  induction l with
  | nil => simp [sorted_by_dist]
  | cons c cs ih =>
    unfold sorted_by_dist
    rw [mem_insertByDist, ih, List.mem_cons]

theorem find_brave_loop_sound (g : GState) (ath : List Enemy) :
    ∀ (cands : List Pos) (p : List Pos),
      find_brave_loop g ath cands = some p →
      p ≠ [] ∧ ∃ t ∈ cands, p.getLast? = some t ∧
        ∃ a, turns_to_reach g.game_map g.agent t = some a ∧
          lt_minus_one a (minTurns g.game_map t ath) = true := by
  intro cands
  induction cands with
  | nil => intro p h; exact absurd h (by simp [find_brave_loop])
  | cons target rest ih =>
    intro p h
    rw [find_brave_loop] at h
    split at h
    · obtain ⟨hne, t, ht, hrest⟩ := ih p h
      exact ⟨hne, t, List.mem_cons_of_mem target ht, hrest⟩
    · rcases hturn : turns_to_reach g.game_map g.agent target with _ | a
      all_goals rw [hturn] at h
      · obtain ⟨hne, t, ht, hrest⟩ := ih p h
        exact ⟨hne, t, List.mem_cons_of_mem target ht, hrest⟩
      · dsimp only at h
        split at h
        · rename_i hmargin
          rcases hastar : a_star g.game_map g.agent target [4, 1]
              (some (create_dynamic_cost_map g true)) with _ | ⟨op, c⟩
          all_goals rw [hastar] at h
          · obtain ⟨hne, t, ht, hrest⟩ := ih p h
            exact ⟨hne, t, List.mem_cons_of_mem target ht, hrest⟩
          · rcases op with _ | path
            · dsimp only at h
              obtain ⟨hne, t, ht, hrest⟩ := ih p h
              exact ⟨hne, t, List.mem_cons_of_mem target ht, hrest⟩
            · dsimp only at h
              split at h
              · obtain ⟨hne, t, ht, hrest⟩ := ih p h
                exact ⟨hne, t, List.mem_cons_of_mem target ht, hrest⟩
              · rename_i hpe
                simp only [Option.some_inj] at h
                subst h
                obtain ⟨hhead, hlast, htail⟩ :=
                  a_star_path_shape g.game_map g.agent target [4, 1] _ path c hastar
                exact ⟨hpe, target, List.mem_cons_self target rest, hlast,
                  a, hturn, hmargin⟩
        · obtain ⟨hne, t, ht, hrest⟩ := ih p h
          exact ⟨hne, t, List.mem_cons_of_mem target ht, hrest⟩

theorem find_brave_loop_none (g : GState) (ath : List Enemy) :
    ∀ cands : List Pos,
      (∀ t ∈ cands, ∀ a, turns_to_reach g.game_map g.agent t = some a →
        lt_minus_one a (minTurns g.game_map t ath) = false) →
      find_brave_loop g ath cands = none := by
  intro cands
  induction cands with
  | nil => intro _; rfl
  | cons target rest ih =>
    intro hmargin
    have hrest := fun t ht => hmargin t (List.mem_cons_of_mem target ht)
    rw [find_brave_loop]
    split
    · exact ih hrest
    · rcases hturn : turns_to_reach g.game_map g.agent target with _ | a
      · exact ih hrest
      · dsimp only
        rw [hmargin target (List.mem_cons_self target rest) a hturn]
        simp only [Bool.false_eq_true, if_false]
        exact ih hrest

/-- Claim C6: whenever the brave planner returns a path, the path is
non-empty and ends on a collectible whose agent turns are finite and satisfy
`agentTurns < enemyTurns - 1` against the minimum over the aggressive
threats; with no aggressive threat, or with no collectible satisfying the
margin, it returns none. -/
theorem C6_brave_margin :
    (∀ (a m : ℕ), lt_minus_one a (some m) = true ↔ a + 1 < m) ∧
    (∀ (g : GState) (threats : List Enemy) (p : List Pos),
      find_brave_path g threats = some p →
      p ≠ [] ∧ ∃ t ∈ g.collectibles, p.getLast? = some t ∧
        ∃ a, turns_to_reach g.game_map g.agent t = some a ∧
          lt_minus_one a (minTurns g.game_map t
            (threats.filter (fun t2 => decide (t2.kind = EnemyKind.aggressive)))) =
            true) ∧
    (∀ (g : GState) (threats : List Enemy),
      (threats.filter (fun t2 => decide (t2.kind = EnemyKind.aggressive))).isEmpty =
        true →
      find_brave_path g threats = none) ∧
    (∀ (g : GState) (threats : List Enemy),
      (∀ t ∈ g.collectibles, ∀ a, turns_to_reach g.game_map g.agent t = some a →
        lt_minus_one a (minTurns g.game_map t
          (threats.filter (fun t2 => decide (t2.kind = EnemyKind.aggressive)))) =
          false) →
      find_brave_path g threats = none) := by
  refine ⟨?_, ?_, ?_, ?_⟩
  · intro a m
    simp [lt_minus_one]
  · intro g threats p h
    unfold find_brave_path at h
    dsimp only at h
    split at h
    · exact absurd h (by simp)
    · obtain ⟨hne, t, ht, hrest⟩ := find_brave_loop_sound g _ _ p h
      exact ⟨hne, t, mem_sorted_by_dist.1 ht, hrest⟩
  · intro g threats hempty
    unfold find_brave_path
    rw [if_pos hempty]
  · intro g threats hmargin
    unfold find_brave_path
    dsimp only
    split
    · rfl
    · exact find_brave_loop_none g _ _
        (fun t ht => hmargin t (mem_sorted_by_dist.1 ht))

theorem C6_witness :
    ([((1 : ℤ), (1 : ℤ)), (2, 1), (3, 1)] : List Pos) ≠ [] ∧
    ∃ t ∈ gC6.collectibles,
      ([((1 : ℤ), (1 : ℤ)), (2, 1), (3, 1)] : List Pos).getLast? = some t ∧
      ∃ a, turns_to_reach gC6.game_map gC6.agent t = some a ∧
        lt_minus_one a (minTurns gC6.game_map t
          (threatsC6.filter (fun t2 => decide (t2.kind = EnemyKind.aggressive)))) =
          true :=
  C6_brave_margin.2.1 gC6 threatsC6 [(1, 1), (2, 1), (3, 1)] (by decide)

theorem mem_rangeIntAux : ∀ (n : ℕ) (a x : ℤ),
    x ∈ rangeIntAux a n ↔ a ≤ x ∧ x < a + n := by
  intro n
  induction n with
  | zero =>
    intro a x
    simp only [rangeIntAux, List.not_mem_nil, false_iff]
    omega
  | succ n ih =>
    intro a x
    rw [rangeIntAux, List.mem_cons, ih (a + 1) x]
    omega

theorem mem_rangeInt {a b x : ℤ} : x ∈ rangeInt a b ↔ a ≤ x ∧ x ≤ b := by
  rw [rangeInt, mem_rangeIntAux]
  omega

theorem mem_escape_candidates {g : GState} {spot : Pos} :
    spot ∈ escape_candidates g ↔
      2 ≤ manhattan spot g.agent ∧ manhattan spot g.agent ≤ 7 ∧
        inBounds spot ∧ g.game_map spot ∉ [1, 4] := by
  unfold escape_candidates
  simp only [List.mem_flatMap, List.mem_filterMap, List.mem_range'_1, mem_rangeInt]
  constructor
  · rintro ⟨r, ⟨hr1, hr2⟩, i, ⟨hi1, hi2⟩, j, ⟨hj1, hj2⟩, hcond⟩
    split at hcond
    · rename_i hc
      obtain ⟨hring, hb, hpass⟩ := hc
      simp only [Option.some_inj] at hcond
      subst hcond
      have hm : manhattan (g.agent.1 + i, g.agent.2 + j) g.agent = r := by
        unfold manhattan
        simp only
        omega
      rw [hm]
      exact ⟨by omega, by omega, hb, hpass⟩
    · exact absurd hcond (by simp)
  · rintro ⟨h2, h7, hb, hpass⟩
    refine ⟨manhattan spot g.agent, ⟨h2, by omega⟩,
      spot.1 - g.agent.1, ?_, spot.2 - g.agent.2, ?_, ?_⟩
    · unfold manhattan at h2 h7 ⊢
      omega
    · unfold manhattan at h2 h7 ⊢
      omega
    · have hspot : (g.agent.1 + (spot.1 - g.agent.1), g.agent.2 + (spot.2 - g.agent.2)) =
          spot := by
        refine Prod.ext ?_ ?_ <;> simp
      rw [hspot]
      rw [if_pos ⟨by unfold manhattan; omega, hb, hpass⟩]

theorem escape_step_sound (g : GState) (cost_map : CostMap)
    (threats allEnemies : List Enemy) (S : List Pos)
    (best : Option (List Pos) × Option (Option ℚ)) (spot : Pos)
    (hspot : spot ∈ S) (hbest : escapeBestOK g allEnemies S best) :
    escapeBestOK g allEnemies S
      (escape_step g cost_map threats allEnemies best spot) := by
  unfold escape_step
  split
  · exact hbest
  · rcases hastar : a_star g.game_map g.agent spot [4, 1] (some cost_map)
      with _ | ⟨op, c⟩
    · exact hbest
    · rcases op with _ | path
      · exact hbest
      · dsimp only
        split
        · rename_i hcond
          split
          · intro p hp
            simp only [Option.some_inj] at hp
            subst hp
            obtain ⟨hhead, hlast, htail⟩ :=
              a_star_path_shape g.game_map g.agent spot [4, 1] (some cost_map)
                path c hastar
            refine ⟨hcond.1, ?_, spot, hspot, hlast⟩
            intro c2 hc2 o ho
            have hno := hcond.2
            push_neg at hno
            exact hno c2 hc2 o ho
          · exact hbest
        · exact hbest

theorem escape_fold_sound (g : GState) (cost_map : CostMap)
    (threats allEnemies : List Enemy) (S : List Pos) :
    ∀ (l : List Pos), (∀ s ∈ l, s ∈ S) →
      ∀ best, escapeBestOK g allEnemies S best →
      escapeBestOK g allEnemies S
        (l.foldl (escape_step g cost_map threats allEnemies) best) := by
  intro l
  induction l with
  | nil => intro _ best hbest; exact hbest
  | cons s l ih =>
    intro hl best hbest
    exact ih (fun s2 hs2 => hl s2 (List.mem_cons_of_mem s hs2)) _
      (escape_step_sound g cost_map threats allEnemies S best s
        (hl s (List.mem_cons_self s l)) hbest)

/-- Claim C7: any path returned by the escape planner is non-empty, avoids
every enemy's current cell, and ends on an in-bounds, non-Obstacle, non-Water
cell on a Manhattan ring of radius 2 through 7 around the agent. -/
theorem C7_escape_avoids_enemies (g : GState) (threats allEnemies : List Enemy)
    (p : List Pos) (h : find_escape_path g threats allEnemies = some p) :
    p ≠ [] ∧ (∀ c ∈ p, ∀ o ∈ allEnemies, c ≠ (o.x, o.y)) ∧
      ∃ spot, p.getLast? = some spot ∧ 2 ≤ manhattan spot g.agent ∧
        manhattan spot g.agent ≤ 7 ∧ inBounds spot ∧
        g.game_map spot ∉ [1, 4] := by
  unfold find_escape_path at h
  have hsound := escape_fold_sound g (create_dynamic_cost_map g true) threats
    allEnemies (escape_candidates g) (escape_candidates g) (fun s hs => hs)
    (none, none) (fun p hp => absurd hp (by simp))
  obtain ⟨hne, havoid, spot, hspot, hlast⟩ := hsound p h
  obtain ⟨h2, h7, hb, hpass⟩ := mem_escape_candidates.1 hspot
  exact ⟨hne, havoid, spot, hlast, h2, h7, hb, hpass⟩

theorem C7_witness :
    ([((1 : ℤ), (1 : ℤ)), (2, 1), (3, 1)] : List Pos) ≠ [] ∧
    (∀ c ∈ ([((1 : ℤ), (1 : ℤ)), (2, 1), (3, 1)] : List Pos),
      ∀ o ∈ enemiesC7, c ≠ (o.x, o.y)) ∧
    ∃ spot, ([((1 : ℤ), (1 : ℤ)), (2, 1), (3, 1)] : List Pos).getLast? = some spot ∧
      2 ≤ manhattan spot gC7.agent ∧ manhattan spot gC7.agent ≤ 7 ∧
      inBounds spot ∧ gC7.game_map spot ∉ [1, 4] :=
  C7_escape_avoids_enemies gC7 enemiesC7 enemiesC7 [(1, 1), (2, 1), (3, 1)]
    (by decide)
